import Mathlib

/-!
Verification of the JCR repository synchronization core of
`misonou/vscode-aemexplorer` (`src/core/repo.ts`).

The development shallowly embeds the value codec (`formatJcrValue`,
`parseJcrValue`, `serializeJcrValue`, `unserializeJcrValue`), the fetch
filter (`fetchJcrNode` / `cleanData`) and the diff-based property writer
(`saveJcrProperties.processNode`) as pure Lean functions, and proves (or
refutes) the specified properties about them.

Modelling conventions:
* JavaScript strings are Lean `String`s (lists of characters); the code
  under verification never uses lone surrogates.
* JavaScript numbers are modelled as exact decimal fractions `m / 10^e`
  with the canonical-form invariant `e = 0 ∨ ¬ (10 ∣ m)`.  JavaScript
  renders every float as its shortest round-tripping decimal, so on the
  values the codec produces and consumes this model agrees with the
  float semantics while staying exact.  `NaN` is a separate constructor.
  Exponential rendering of extreme magnitudes (`1e+21`) is not modelled.
* JavaScript `Date` objects are modelled by their UTC calendar
  components; `toISOString` and ISO parsing act on the components.
  Parsing of non-ISO or timezone-less date strings (whose JS result is
  environment dependent) is modelled as an invalid date.
* The asynchronous transport (`client.fetchJSON` / `client.post`) is a
  parameter; the sequential `await` control flow of the source becomes
  sequential composition, and the writer returns the trace of requests
  it issued so that specifications can talk about them.
-/

/-- UTC calendar components of a JavaScript `Date` object. -/
structure JSDate where
  year : Nat
  month : Nat
  day : Nat
  hour : Nat
  minute : Nat
  second : Nat
  ms : Nat
deriving DecidableEq, Repr

/-- A JavaScript value as manipulated by `repo.ts`: scalar (string,
boolean, number, date), homogeneous array, or nested object (child
node).  `nan` is the number `NaN`; `invalidDate` is a `Date` with `NaN`
time value. -/
inductive JValue where
  | str (s : String)
  | bool (b : Bool)
  | num (m : Int) (e : Nat)
  | nan
  | date (d : JSDate)
  | invalidDate
  | arr (elems : List JValue)
  | obj (fields : List (String × JValue))
deriving Repr

/-- JCR property type tags (`VALUE_TYPE` in `core/constants.ts`).
Modelled from the spec: `constants.ts` is not part of the provided
sources; the tags are the standard JCR type names referenced in §4.1
(string, boolean, long-integer, double, date). -/
def VALUE_TYPE.string : String := "String"

/-- JCR boolean type tag. -/
def VALUE_TYPE.boolean : String := "Boolean"

/-- JCR long-integer type tag. -/
def VALUE_TYPE.long : String := "Long"

/-- JCR double type tag. -/
def VALUE_TYPE.double : String := "Double"

/-- JCR date type tag. -/
def VALUE_TYPE.date : String := "Date"

/-- `PROP.jcrPrimaryType` from `core/constants.ts` (modelled from the
spec: the primary-type marker property). -/
def PROP.jcrPrimaryType : String := "jcr:primaryType"

/-- The fixed always-ignored audit/internal property list `internalProps`
of `repo.ts` (the names are the standard JCR/AEM audit properties the
`PROP` constants denote; `constants.ts` is not part of the provided
sources). -/
def internalProps : List String :=
  ["jcr:created", "jcr:createdBy", "jcr:lastModified", "jcr:lastModifiedBy",
   "cq:lastModified", "cq:lastModifiedBy", "cq:lastReplicated",
   "cq:lastReplicatedBy", "cq:lastReplicationAction"]

/-- `isChildNode`: `typeof data[i] === 'object' && !Array.isArray(data[i])`.
Note that a `Date` object also satisfies this test. -/
def isChildNode : JValue → Bool
  | .obj _ => true
  | .date _ => true
  | .invalidDate => true
  | _ => false

/-- JavaScript truthiness of a value. -/
def jsTruthy : JValue → Bool
  | .str s => !s.isEmpty
  | .bool b => b
  | .num m _ => m ≠ 0
  | .nan => false
  | _ => true

/-- Little-endian base-10 digits of `n`, with explicit fuel (the source
uses JavaScript number-to-string conversion; fuel keeps the definition
structurally recursive and hence kernel-evaluable). -/
def natDigitsRevFuel : Nat → Nat → List Nat
  | 0, _ => []
  | _ + 1, 0 => []
  | f + 1, n => n % 10 :: natDigitsRevFuel f (n / 10)

/-- Little-endian base-10 digits of `n` (empty for `0`). -/
def natDigitsRev (n : Nat) : List Nat := natDigitsRevFuel n n

/-- Value of a little-endian digit list. -/
def listValRev : List Nat → Nat
  | [] => 0
  | d :: ds => d + 10 * listValRev ds

/-- One decimal digit to its character. -/
def digitToChar (d : Nat) : Char := Char.ofNat (48 + d)

/-- A character to its decimal digit value (`c - '0'`). -/
def charToDigit (c : Char) : Nat := c.toNat - 48

/-- Whether `c` is an ASCII decimal digit. -/
def isDigitChar (c : Char) : Bool := 48 ≤ c.toNat && c.toNat ≤ 57

/-- Decimal rendering of a natural number (JavaScript `String(n)`). -/
def natRepr (n : Nat) : List Char :=
  if n = 0 then ['0'] else ((natDigitsRev n).map digitToChar).reverse

/-- Decimal rendering of an integer (JavaScript `String(i)`). -/
def intRepr (i : Int) : List Char :=
  if i < 0 then '-' :: natRepr i.natAbs else natRepr i.natAbs

/-- Left-pad a character list with `'0'` up to length `k`. -/
def padZero (k : Nat) (l : List Char) : List Char :=
  List.replicate (k - l.length) '0' ++ l

/-- JavaScript `String(x)` for the decimal fraction `m / 10^e`
(plain decimal notation, e.g. `-0.05`). -/
def numRepr (m : Int) (e : Nat) : List Char :=
  if e = 0 then intRepr m
  else
    let ds := padZero (e + 1) (natRepr m.natAbs)
    let sign : List Char := if m < 0 then ['-'] else []
    sign ++ ds.take (ds.length - e) ++ '.' :: ds.drop (ds.length - e)

/-- Zero-padded fixed-width decimal rendering (for ISO dates). -/
def padNat (k n : Nat) : List Char := padZero k (natRepr n)

/-- `Date.prototype.toISOString` on the component model:
`YYYY-MM-DDTHH:MM:SS.sssZ` (years outside 0–9999, which JavaScript
renders in expanded form, are out of scope of every claim). -/
def toISOString (d : JSDate) : List Char :=
  padNat 4 d.year ++ '-' :: padNat 2 d.month ++ '-' :: padNat 2 d.day ++
  'T' :: padNat 2 d.hour ++ ':' :: padNat 2 d.minute ++ ':' :: padNat 2 d.second ++
  '.' :: padNat 3 d.ms ++ ['Z']

/-- `getJcrValueType` of `repo.ts`: infer the JCR type tag from the
runtime shape of a value.  A number is a long exactly when it is
integral (`Math.floor(value) - value === 0`), which for canonical
decimal fractions means `e = 0`; `NaN` is not integral, hence a double.
An array takes its first element's tag plus `[]`, or `''`. -/
def getJcrValueType : JValue → String
  | .str _ => VALUE_TYPE.string
  | .bool _ => VALUE_TYPE.boolean
  | .num _ e => if e = 0 then VALUE_TYPE.long else VALUE_TYPE.double
  | .nan => VALUE_TYPE.double
  | .date _ => VALUE_TYPE.date
  | .invalidDate => VALUE_TYPE.date
  | .arr [] => ""
  | .arr (x :: _) =>
    let t := getJcrValueType x
    if t = "" then "" else t ++ "[]"
  | .obj _ => ""

/-- Character-level body of `formatJcrValue` / JavaScript `String(x)`,
with fuel for the recursion through array elements
(`Array.prototype.toString` joins the element strings with `','`).
Divergences, none reachable from any claim: `String` of a valid `Date`
inside an array uses the locale format in JavaScript while the model
reuses the ISO form, and `toISOString` on an invalid date throws
(modelled as `"Invalid Date"`). -/
def formatChars : Nat → JValue → List Char
  | _, .str s => s.data
  | _, .bool b => if b then "true".data else "false".data
  | _, .num m e => numRepr m e
  | _, .nan => "NaN".data
  | _, .date d => toISOString d
  | _, .invalidDate => "Invalid Date".data
  | _, .obj _ => "[object Object]".data
  | 0, .arr _ => []
  | f + 1, .arr xs => List.intercalate [','] (xs.map (formatChars f))

mutual

/-- Structural size of a `JValue`, used as recursion fuel. -/
def jsize : JValue → Nat
  | .arr xs => 1 + jsizeList xs
  | .obj fs => 1 + jsizeFields fs
  | _ => 1

/-- Structural size of a list of values. -/
def jsizeList : List JValue → Nat
  | [] => 0
  | x :: xs => jsize x + jsizeList xs

/-- Structural size of a field list. -/
def jsizeFields : List (String × JValue) → Nat
  | [] => 0
  | (_, v) :: fs => jsize v + jsizeFields fs

end

/-- `formatJcrValue` of `repo.ts`: `toISOString` for dates, otherwise
JavaScript `String(value)`. -/
def formatJcrValue (v : JValue) : String := ⟨formatChars (jsize v) v⟩

/-- Whether `c` is an ASCII hex digit (the `i` regex flag makes both
cases match). -/
def isHexDigit (c : Char) : Bool :=
  isDigitChar c || (97 ≤ c.toNat && c.toNat ≤ 102) || (65 ≤ c.toNat && c.toNat ≤ 70)

/-- Hex digit value of a character. -/
def hexVal (c : Char) : Nat :=
  if c.toNat ≤ 57 then c.toNat - 48
  else if c.toNat ≤ 70 then c.toNat - 55
  else c.toNat - 87

/-- The un-escaping pass of `parseJcrValue`:
`value.replace(/\\(u([0-9a-f]{4})|[,\\\[\{])/gi, v => v[2] ? String.fromCodePoint(parseInt(v[2], 16)) : v[1])`.
The replacement callback receives the whole match string `v`, so for a
`\uXXXX` match `v[2]` is the *first hex digit* and the replacement is
the code point of that single digit — the model reproduces this
behaviour of the source exactly. -/
def unescapeFuel : Nat → List Char → List Char
  | 0, l => l
  | _ + 1, [] => []
  | f + 1, c :: rest =>
    if c = '\\' then
      match rest with
      | [] => ['\\']
      | d :: rest2 =>
        if d = ',' ∨ d = '\\' ∨ d = '[' ∨ d = '\x7b' then d :: unescapeFuel f rest2
        else if d = 'u' ∨ d = 'U' then
          match rest2 with
          | h1 :: h2 :: h3 :: h4 :: rest3 =>
            if isHexDigit h1 && isHexDigit h2 && isHexDigit h3 && isHexDigit h4 then
              Char.ofNat (hexVal h1) :: unescapeFuel f rest3
            else '\\' :: unescapeFuel f rest
          | _ => '\\' :: unescapeFuel f rest
        else '\\' :: unescapeFuel f rest
    else c :: unescapeFuel f rest

/-- The un-escaping pass with sufficient fuel. -/
def unescapeChars (l : List Char) : List Char := unescapeFuel l.length l

/-- Big-endian value of a digit-character list. -/
def chsVal (l : List Char) : Nat := l.foldl (fun a c => a * 10 + charToDigit c) 0

/-- Plain-decimal part of JavaScript string-to-number conversion:
optional sign, digits, optional fraction.  (Whitespace trimming, hex,
and exponent notation of `ToNumber` are not exercised by the codec and
are not modelled.) -/
def parseNumSign (l : List Char) : Int × List Char :=
  if l.head? = some '-' then (-1, l.tail)
  else if l.head? = some '+' then (1, l.tail) else (1, l)

/-- Unsigned part of the plain-decimal parser: integer digits, optional
`.` and fraction digits, nothing else. -/
def parseNumBody (sign : Int) (l1 : List Char) : Option (Int × Nat) :=
  if l1.dropWhile isDigitChar = [] then
    if l1.takeWhile isDigitChar = [] then none
    else some (sign * chsVal (l1.takeWhile isDigitChar), 0)
  else if (l1.dropWhile isDigitChar).head? = some '.' then
    if (l1.dropWhile isDigitChar).tail.dropWhile isDigitChar = [] ∧
        (l1.takeWhile isDigitChar ≠ [] ∨
          (l1.dropWhile isDigitChar).tail.takeWhile isDigitChar ≠ []) then
      some (sign * chsVal (l1.takeWhile isDigitChar ++
              (l1.dropWhile isDigitChar).tail.takeWhile isDigitChar),
            ((l1.dropWhile isDigitChar).tail.takeWhile isDigitChar).length)
    else none
  else none

/-- Sign handling plus unsigned part. -/
def parseNumCore (l : List Char) : Option (Int × Nat) :=
  parseNumBody (parseNumSign l).1 (parseNumSign l).2

/-- Strip trailing fraction zeroes: a JavaScript number denoted `m/10^e`
is stored in canonical form. -/
def normNum : Nat → Int → Int × Nat
  | 0, m => (m, 0)
  | e + 1, m => if m % 10 = 0 then normNum e (m / 10) else (m, e + 1)

/-- JavaScript `+string` (`ToNumber`) on the model: the empty string is
`0`; otherwise plain decimal notation, normalised. -/
def jsToNumber (l : List Char) : Option (Int × Nat) :=
  if l = [] then some (0, 0)
  else (parseNumCore l).map (fun p => normNum p.2 p.1)

/-- Match exactly `k` decimal digits, returning the rest. -/
def matchDigits : Nat → List Char → Option (List Char)
  | 0, l => some l
  | _ + 1, [] => none
  | k + 1, c :: r => if isDigitChar c then matchDigits k r else none

/-- Match one literal character, returning the rest. -/
def matchLit (c : Char) : List Char → Option (List Char)
  | [] => none
  | d :: r => if d = c then some r else none

/-- Optional `(?:\.\d*)?` fraction of the date-inference regex. -/
def matchFrac : List Char → List Char
  | '.' :: r => r.dropWhile isDigitChar
  | l => l

/-- Optional timezone suffix `((-(\d{2}):(\d{2})|Z)?)$` of the
date-inference regex (only `-HH:MM` or `Z`; no `+HH:MM`). -/
def matchTZEnd (l : List Char) : Bool :=
  match l with
  | [] => true
  | ['Z'] => true
  | '-' :: r =>
    match (matchDigits 2 r).bind (matchLit ':') |>.bind (matchDigits 2) with
    | some [] => true
    | _ => false
  | _ => false

/-- The ISO-8601 inference test of `parseJcrValue`:
`/^(\d{4})-(\d{2})-(\d{2})T(\d{2}):(\d{2}):(\d{2}(?:\.\d*)?)((-(\d{2}):(\d{2})|Z)?)$/`. -/
def dateRegexTest (l : List Char) : Bool :=
  let m :=
    (matchDigits 4 l).bind (matchLit '-') |>.bind (matchDigits 2) |>.bind (matchLit '-')
    |>.bind (matchDigits 2) |>.bind (matchLit 'T') |>.bind (matchDigits 2)
    |>.bind (matchLit ':') |>.bind (matchDigits 2) |>.bind (matchLit ':')
    |>.bind (matchDigits 2)
  match m with
  | none => false
  | some r => matchTZEnd (matchFrac r)

/-- Days in a calendar month (proleptic Gregorian). -/
def daysInMonth (y m : Nat) : Nat :=
  if m = 2 then (if (y % 4 = 0 ∧ y % 100 ≠ 0) ∨ y % 400 = 0 then 29 else 28)
  else if m = 4 ∨ m = 6 ∨ m = 9 ∨ m = 11 then 30 else 31

/-- Validity of date components: exactly those tuples a real (finite,
year 0–9999) JavaScript `Date` can expose through `toISOString`. -/
def validDate (d : JSDate) : Bool :=
  d.year ≤ 9999 && 1 ≤ d.month && d.month ≤ 12 && 1 ≤ d.day &&
  d.day ≤ daysInMonth d.year d.month && d.hour ≤ 23 && d.minute ≤ 59 &&
  d.second ≤ 59 && d.ms ≤ 999

/-- `new Date(string)` on the model: strict parse of the
`YYYY-MM-DDTHH:MM:SS.sssZ` shape produced by `toISOString`, validated
against calendar ranges; every other input — including timezone-less
forms whose JavaScript result is environment dependent — is modelled as
an invalid date. -/
def parseISOChars (l : List Char) : JValue :=
  match l with
  | [y1, y2, y3, y4, '-', m1, m2, '-', d1, d2, 'T', h1, h2, ':', n1, n2, ':',
     s1, s2, '.', f1, f2, f3, 'Z'] =>
    if [y1, y2, y3, y4, m1, m2, d1, d2, h1, h2, n1, n2, s1, s2, f1, f2, f3].all isDigitChar then
      let d : JSDate :=
        { year := chsVal [y1, y2, y3, y4], month := chsVal [m1, m2], day := chsVal [d1, d2],
          hour := chsVal [h1, h2], minute := chsVal [n1, n2], second := chsVal [s1, s2],
          ms := chsVal [f1, f2, f3] }
      if validDate d then .date d else .invalidDate
    else .invalidDate
  | _ => .invalidDate

/-- `parseJcrValue` of `repo.ts` on character lists: un-escape, infer a
type tag when none is given (boolean literals, the ISO date pattern,
else numeric), then convert per tag; a remaining literal `\0` denotes
the empty string. -/
def parseJcrValue (value : List Char) (typeHint : String) : JValue :=
  let v := unescapeChars value
  let t :=
    if typeHint = "" then
      if v = "true".data ∨ v = "false".data then VALUE_TYPE.boolean
      else if dateRegexTest v then VALUE_TYPE.date
      else if v ≠ [] ∧ (jsToNumber v).isSome then VALUE_TYPE.double
      else ""
    else typeHint
  if t = VALUE_TYPE.boolean then .bool (v = "true".data)
  else if t = VALUE_TYPE.date then parseISOChars v
  else if t = VALUE_TYPE.double ∨ t = VALUE_TYPE.long then
    match jsToNumber v with
    | some (m, e) => .num m e
    | none => .nan
  else if v = ['\\', '0'] then .str ""
  else .str ⟨v⟩

/-- `replace(/,/g, '\\,')` applied to an array element's rendering. -/
def escapeCommas (l : List Char) : List Char :=
  l.flatMap (fun c => if c = ',' then ['\\', ','] else [c])

/-- `serializeJcrValue` of `repo.ts` on character lists.  A non-array
renders via `formatJcrValue`; a leading `[` or `{` is then passed
through `replace(/^[\[{]/, '\\$1')`, and since that regex has **no
capture group** JavaScript substitutes the literal text `$1`, so the
leading bracket is replaced by the three characters `\$1`.  The
single-empty-string array becomes the `[\0]` marker; other arrays list
their comma-escaped elements. -/
def serializeChars : JValue → List Char
  | .arr [.str ""] => "[\\0]".data
  | .arr xs =>
    '[' :: List.intercalate [','] (xs.map (fun x => escapeCommas (formatChars (jsize x) x))) ++ [']']
  | v =>
    match formatChars (jsize v) v with
    | [] => []
    | c :: rest => if c = '[' ∨ c = '\x7b' then '\\' :: '$' :: '1' :: rest else c :: rest

/-- `serializeJcrValue` as a `String`-valued function. -/
def serializeJcrValue (v : JValue) : String := ⟨serializeChars v⟩

/-- Greedy unit run of the element regex
`((?:\\[,\]]|[^,\]])*)(?=,|\])` starting at the head of the list:
returns the number of characters the successful match consumes together
with whether the lookahead succeeded, reproducing the backtracking of
the JavaScript engine (on reaching the end of input, the last `\,`/`\]`
unit degrades to a lone `\` matched by `[^,\]]` so that the following
`,`/`]` satisfies the lookahead). -/
def runUnitsFuel : Nat → List Char → Nat × Bool
  | 0, _ => (0, false)
  | _ + 1, [] => (0, false)
  | f + 1, c :: rest =>
    if c = ',' ∨ c = ']' then (0, true)
    else if c = '\\' then
      match rest with
      | [] => (1, false)
      | d :: rest2 =>
        if d = ',' ∨ d = ']' then
          match runUnitsFuel f rest2 with
          | (n, true) => (n + 2, true)
          | (_, false) => (1, true)
        else
          match runUnitsFuel f (d :: rest2) with
          | (n, ok) => (n + 1, ok)
    else
      match runUnitsFuel f rest with
      | (n, ok) => (n + 1, ok)

/-- The greedy unit run with sufficient fuel. -/
def runUnits (l : List Char) : Nat × Bool := runUnitsFuel l.length l

/-- Leftmost match of `/^\[|((?:\\[,\]]|[^,\]])*)(?=,|\])/g` at or after
position `p` of `s`: returns the match position and length. -/
def findMatchFrom (s : List Char) : Nat → Nat → Option (Nat × Nat)
  | 0, _ => none
  | f + 1, p =>
    if s.length < p then none
    else if p = 0 ∧ s.head? = some '[' then some (0, 1)
    else
      match runUnits (s.drop p) with
      | (n, true) => some (p, n)
      | (_, false) => findMatchFrom s f (p + 1)

/-- The `matchAll` loop of `unserializeJcrValue`: iterate the global
regex (a zero-length match advances the scan position by one), keeping
a match only when its index is strictly beyond the end of the last kept
match and recording element substrings. -/
def collectGo (s : List Char) : Nat → Nat → Nat → List (List Char)
  | 0, _, _ => []
  | f + 1, scanPos, lastIdx =>
    match findMatchFrom s (s.length + 1) scanPos with
    | none => []
    | some (i, len) =>
      let nextScan := if len = 0 then i + 1 else i + len
      if lastIdx < i then
        (s.drop i).take len :: collectGo s f nextScan (i + len)
      else
        collectGo s f nextScan lastIdx

/-- All kept element matches of the array-splitting regex over `s`. -/
def collectMatches (s : List Char) : List (List Char) :=
  collectGo s (s.length + 2) 0 0

/-- Whether `c` is a `\w` word character. -/
def isWordChar (c : Char) : Bool :=
  isDigitChar c || (65 ≤ c.toNat && c.toNat ≤ 90) || (97 ≤ c.toNat && c.toNat ≤ 122) || c = '_'

/-- The `/^\{(\w+)\}/` type-hint prefix test of `unserializeJcrValue`:
on success returns the hint name and the rest of the input. -/
def typeHintMatch (l : List Char) : Option (String × List Char) :=
  match l with
  | '\x7b' :: rest =>
    let w := rest.takeWhile isWordChar
    let r := rest.dropWhile isWordChar
    if w ≠ [] ∧ r.head? = some '\x7d' then some (⟨w⟩, r.tail) else none
  | _ => none

/-- `unserializeJcrValue` of `repo.ts` on character lists: strip an
explicit `{Type}` hint, then parse either a `[...]` array (splitting
elements with the `matchAll` loop) or a single scalar; the returned tag
is the explicit hint (suffixed `[]` for arrays) or empty. -/
def unserializeJcrValue (s : List Char) : JValue × String :=
  let hs : String × List Char :=
    match typeHintMatch s with
    | some p => p
    | none => ("", s)
  let hint := hs.1
  let s1 := hs.2
  if s1.head? = some '[' then
    (JValue.arr ((collectMatches s1).map (fun m => parseJcrValue m hint)),
     if hint = "" then "" else hint ++ "[]")
  else
    (parseJcrValue s1 hint, if hint = "" then "" else hint)

/-! ### Arithmetic facts about decimal rendering and parsing -/

/-- The fueled digit expansion evaluates back to its input. -/
theorem listValRev_natDigitsRevFuel :
    ∀ f n, n ≤ f → listValRev (natDigitsRevFuel f n) = n := by
  intro f
  induction f with
  | zero => intro n h; interval_cases n; rfl
  | succ f ih =>
    intro n h
    match n with
    | 0 => rfl
    | n + 1 =>
      have hd : (n + 1) / 10 ≤ f := by
        have := Nat.div_lt_self (Nat.succ_pos n) (by norm_num : 1 < 10)
        omega
      have : natDigitsRevFuel (f + 1) (n + 1) =
          (n + 1) % 10 :: natDigitsRevFuel f ((n + 1) / 10) := rfl
      rw [this, listValRev, ih _ hd]
      omega

/-- Every digit produced by the fueled expansion is below 10. -/
theorem natDigitsRevFuel_lt :
    ∀ f n d, d ∈ natDigitsRevFuel f n → d < 10 := by
  intro f
  induction f with
  | zero => intro n d h; simp [natDigitsRevFuel] at h
  | succ f ih =>
    intro n d h
    match n with
    | 0 => simp [natDigitsRevFuel] at h
    | n + 1 =>
      have : natDigitsRevFuel (f + 1) (n + 1) =
          (n + 1) % 10 :: natDigitsRevFuel f ((n + 1) / 10) := rfl
      rw [this] at h
      rcases List.mem_cons.mp h with h | h
      · subst h; exact Nat.mod_lt _ (by norm_num)
      · exact ih _ _ h

/-- Digit length bound: `n < 10^k` yields at most `k` digits. -/
theorem natDigitsRevFuel_length :
    ∀ f n k, n ≤ f → n < 10 ^ k → (natDigitsRevFuel f n).length ≤ k := by
  intro f
  induction f with
  | zero => intro n k h _; interval_cases n; simp [natDigitsRevFuel]
  | succ f ih =>
    intro n k h hk
    match n with
    | 0 => simp [natDigitsRevFuel]
    | n + 1 =>
      have : natDigitsRevFuel (f + 1) (n + 1) =
          (n + 1) % 10 :: natDigitsRevFuel f ((n + 1) / 10) := rfl
      rw [this]
      match k with
      | 0 => simp at hk
      | k + 1 =>
        have hd : (n + 1) / 10 ≤ f := by
          have := Nat.div_lt_self (Nat.succ_pos n) (by norm_num : 1 < 10)
          omega
        have hk2 : (n + 1) / 10 < 10 ^ k := by
          rw [Nat.div_lt_iff_lt_mul (by norm_num : 0 < 10)]
          calc n + 1 < 10 ^ (k + 1) := hk
          _ = 10 ^ k * 10 := by ring
        simpa using ih _ k hd hk2

/-- Round-trip of a single digit through its character. -/
theorem charToDigit_digitToChar {d : Nat} (h : d < 10) :
    charToDigit (digitToChar d) = d := by
  interval_cases d <;> decide

/-- Digit characters are recognised by `isDigitChar`. -/
theorem isDigitChar_digitToChar {d : Nat} (h : d < 10) :
    isDigitChar (digitToChar d) = true := by
  interval_cases d <;> decide

/-- `chsVal` over a snoc. -/
theorem chsVal_concat (l : List Char) (c : Char) :
    chsVal (l ++ [c]) = chsVal l * 10 + charToDigit c := by
  simp [chsVal, List.foldl_append]

/-- `chsVal` of the reversed character rendering of a digit list. -/
theorem chsVal_reverse_map (ds : List Nat) (h : ∀ d ∈ ds, d < 10) :
    chsVal ((ds.map digitToChar).reverse) = listValRev ds := by
  induction ds with
  | nil => rfl
  | cons d ds ih =>
    have hd : d < 10 := h d (List.mem_cons_self d ds)
    have ih2 := ih (fun x hx => h x (List.mem_cons_of_mem d hx))
    simp only [List.map_cons, List.reverse_cons, chsVal_concat, ih2,
      charToDigit_digitToChar hd, listValRev]
    ring

/-- Leading zero characters do not change `chsVal`. -/
theorem chsVal_replicate_zero (k : Nat) (l : List Char) :
    chsVal (List.replicate k '0' ++ l) = chsVal l := by
  induction k with
  | zero => rfl
  | succ k ih =>
    have : List.replicate (k + 1) '0' ++ l = '0' :: (List.replicate k '0' ++ l) := by
      simp [List.replicate_succ]
    rw [this]
    simpa [chsVal] using ih

/-- `natRepr` renders only digit characters. -/
theorem natRepr_digits (n : Nat) : ∀ c ∈ natRepr n, isDigitChar c = true := by
  intro c hc
  by_cases h : n = 0
  · subst h; simp [natRepr] at hc; subst hc; decide
  · simp only [natRepr, if_neg h, List.mem_reverse, List.mem_map] at hc
    obtain ⟨d, hd, rfl⟩ := hc
    exact isDigitChar_digitToChar (natDigitsRevFuel_lt _ _ _ hd)

/-- `natRepr` parses back to its value. -/
theorem chsVal_natRepr (n : Nat) : chsVal (natRepr n) = n := by
  by_cases h : n = 0
  · subst h; decide
  · have hrw : natDigitsRev n = natDigitsRevFuel n n := rfl
    rw [natRepr, if_neg h, hrw,
      chsVal_reverse_map _ (fun d hd => natDigitsRevFuel_lt _ _ _ hd),
      listValRev_natDigitsRevFuel n n (Nat.le_refl n)]

/-- `natRepr` is nonempty. -/
theorem natRepr_ne_nil (n : Nat) : natRepr n ≠ [] := by
  by_cases h : n = 0
  · subst h; decide
  · rw [natRepr, if_neg h]
    intro hcon
    have h1 : listValRev (natDigitsRevFuel n n) = n :=
      listValRev_natDigitsRevFuel n n (Nat.le_refl n)
    have h2 : natDigitsRevFuel n n = [] := by
      have := congrArg List.length hcon
      simpa [natDigitsRev] using this
    rw [h2] at h1
    exact h (h1.symm)

/-- Length bound for `natRepr`. -/
theorem natRepr_length_le {n k : Nat} (hk : 0 < k) (h : n < 10 ^ k) :
    (natRepr n).length ≤ k := by
  by_cases h0 : n = 0
  · subst h0; simpa [natRepr] using hk
  · rw [natRepr, if_neg h0]
    simpa [natDigitsRev] using natDigitsRevFuel_length n n k (Nat.le_refl n) h

/-- `padZero` yields exactly `k` characters when the input is short. -/
theorem padZero_length {k : Nat} {l : List Char} (h : l.length ≤ k) :
    (padZero k l).length = k := by
  simp [padZero]
  omega

/-- `padZero` preserves `chsVal`. -/
theorem chsVal_padZero (k : Nat) (l : List Char) :
    chsVal (padZero k l) = chsVal l := chsVal_replicate_zero _ _

/-- `padZero` preserves digit-character lists. -/
theorem padZero_digits {k : Nat} {l : List Char} (h : ∀ c ∈ l, isDigitChar c = true) :
    ∀ c ∈ padZero k l, isDigitChar c = true := by
  intro c hc
  rcases List.mem_append.mp hc with hc | hc
  · have := List.eq_of_mem_replicate hc
    subst this; decide
  · exact h c hc

/-- `padNat` block specification: fixed width, all digits, same value. -/
theorem padNat_spec {k n : Nat} (hk : 0 < k) (h : n < 10 ^ k) :
    (padNat k n).length = k ∧ (∀ c ∈ padNat k n, isDigitChar c = true) ∧
      chsVal (padNat k n) = n := by
  refine ⟨padZero_length (natRepr_length_le hk h), padZero_digits (natRepr_digits n), ?_⟩
  rw [padNat, chsVal_padZero, chsVal_natRepr]

/-- Bounds form of `isDigitChar`. -/
theorem isDigitChar_toNat {c : Char} (h : isDigitChar c = true) :
    48 ≤ c.toNat ∧ c.toNat ≤ 57 := by
  simpa [isDigitChar, Bool.and_eq_true] using h

/-- A digit character is distinct from every non-digit character. -/
theorem isDigitChar_ne {c : Char} (h : isDigitChar c = true) {d : Char}
    (hd : isDigitChar d = false) : c ≠ d := by
  intro e
  rw [e] at h
  rw [h] at hd
  exact Bool.noConfusion hd

/-- `takeWhile`/`dropWhile` split at the first failing element. -/
theorem takeWhile_append_stop {p : Char → Bool} {xs : List Char} {y : Char}
    (ys : List Char) (hxs : ∀ x ∈ xs, p x = true) (hy : p y = false) :
    (xs ++ y :: ys).takeWhile p = xs ∧ (xs ++ y :: ys).dropWhile p = y :: ys := by
  induction xs with
  | nil => simp [List.takeWhile_cons, List.dropWhile_cons, hy]
  | cons a xs ih =>
    have ha : p a = true := hxs a (List.mem_cons_self a xs)
    have ih2 := ih (fun x hx => hxs x (List.mem_cons_of_mem a hx))
    simp [List.takeWhile_cons, List.dropWhile_cons, ha, ih2.1, ih2.2]

/-- `padZero` length in general. -/
theorem padZero_length_max (k : Nat) (l : List Char) :
    (padZero k l).length = max k l.length := by
  simp [padZero]
  omega


/-- An all-digit list survives `takeWhile isDigitChar` whole. -/
theorem takeWhile_digits_all {l : List Char} (h : ∀ c ∈ l, isDigitChar c = true) :
    l.takeWhile isDigitChar = l ∧ l.dropWhile isDigitChar = [] :=
  ⟨List.takeWhile_eq_self_iff.mpr h, List.dropWhile_eq_nil_iff.mpr h⟩

/-- A list with a digit head carries no sign. -/
theorem parseNumSign_digit {c : Char} (cs : List Char) (hc : isDigitChar c = true) :
    parseNumSign (c :: cs) = (1, c :: cs) := by
  have hcm : c ≠ '-' := isDigitChar_ne hc (by decide)
  have hcp : c ≠ '+' := isDigitChar_ne hc (by decide)
  simp [parseNumSign, hcm, hcp]

/-- `parseNumBody` on an all-digit, nonempty list. -/
theorem parseNumBody_digits (sign : Int) {l : List Char}
    (h : ∀ c ∈ l, isDigitChar c = true) (hne : l ≠ []) :
    parseNumBody sign l = some (sign * chsVal l, 0) := by
  have hw := takeWhile_digits_all h
  rw [parseNumBody, if_pos hw.2, hw.1, if_neg hne]

/-- `parseNumBody` on digits, a dot, and fraction digits. -/
theorem parseNumBody_frac (sign : Int) {T D : List Char}
    (hT : ∀ c ∈ T, isDigitChar c = true) (hD : ∀ c ∈ D, isDigitChar c = true)
    (hTne : T ≠ []) :
    parseNumBody sign (T ++ '.' :: D) = some (sign * chsVal (T ++ D), D.length) := by
  have hsplit := takeWhile_append_stop (p := isDigitChar) D hT
    (by decide : isDigitChar '.' = false)
  have hw := takeWhile_digits_all hD
  rw [parseNumBody, hsplit.2]
  rw [if_neg (by simp : ('.' :: D : List Char) ≠ [])]
  simp only [List.head?_cons, List.tail_cons, if_pos rfl, hsplit.1, hw.1, hw.2]
  simp [hTne]

/-- The plain-decimal parser recovers `numRepr` exactly. -/
theorem parseNumCore_numRepr (m : Int) (e : Nat) :
    parseNumCore (numRepr m e) = some (m, e) := by
  rcases Nat.eq_zero_or_pos e with he | he
  · subst he
    by_cases hm : m < 0
    · have hrepr : numRepr m 0 = '-' :: natRepr m.natAbs := by
        simp [numRepr, intRepr, hm]
      rw [parseNumCore, hrepr]
      have hsign : parseNumSign ('-' :: natRepr m.natAbs) = (-1, natRepr m.natAbs) := by
        simp [parseNumSign]
      rw [hsign, parseNumBody_digits _ (natRepr_digits _) (natRepr_ne_nil _), chsVal_natRepr]
      have habs : (m.natAbs : Int) = -m := by omega
      rw [habs]
      norm_num
    · have hrepr : numRepr m 0 = natRepr m.natAbs := by
        simp [numRepr, intRepr, hm]
      obtain ⟨c, cs, hcons⟩ : ∃ c cs, natRepr m.natAbs = c :: cs := by
        cases hl : natRepr m.natAbs with
        | nil => exact absurd hl (natRepr_ne_nil _)
        | cons c cs => exact ⟨c, cs, rfl⟩
      have hc : isDigitChar c = true :=
        natRepr_digits m.natAbs c (by rw [hcons]; exact List.mem_cons_self c cs)
      rw [parseNumCore, hrepr, hcons, parseNumSign_digit cs hc, ← hcons,
        parseNumBody_digits _ (natRepr_digits _) (natRepr_ne_nil _), chsVal_natRepr]
      have habs : (m.natAbs : Int) = m := by omega
      rw [habs]
      norm_num
  · obtain ⟨e0, rfl⟩ : ∃ e0, e = e0 + 1 := ⟨e - 1, by omega⟩
    have hds : ∀ c ∈ padZero (e0 + 1 + 1) (natRepr m.natAbs), isDigitChar c = true :=
      padZero_digits (natRepr_digits m.natAbs)
    set ds := padZero (e0 + 1 + 1) (natRepr m.natAbs) with hds_def
    have hL : e0 + 1 + 1 ≤ ds.length := by
      rw [hds_def, padZero_length_max]; omega
    have htlen : (ds.take (ds.length - (e0 + 1))).length = ds.length - (e0 + 1) :=
      List.length_take_of_le (by omega)
    have hdlen : (ds.drop (ds.length - (e0 + 1))).length = e0 + 1 := by
      rw [List.length_drop]; omega
    have htdig : ∀ c ∈ ds.take (ds.length - (e0 + 1)), isDigitChar c = true :=
      fun c hc => hds c (List.mem_of_mem_take hc)
    have hddig : ∀ c ∈ ds.drop (ds.length - (e0 + 1)), isDigitChar c = true :=
      fun c hc => hds c (List.mem_of_mem_drop hc)
    have hTne : ds.take (ds.length - (e0 + 1)) ≠ [] := by
      intro hcon
      rw [hcon] at htlen
      simp at htlen
      omega
    have hvc : chsVal (ds.take (ds.length - (e0 + 1)) ++ ds.drop (ds.length - (e0 + 1))) =
        m.natAbs := by
      rw [List.take_append_drop, hds_def, chsVal_padZero, chsVal_natRepr]
    by_cases hm : m < 0
    · have hrepr : numRepr m (e0 + 1) =
          '-' :: (ds.take (ds.length - (e0 + 1)) ++ '.' :: ds.drop (ds.length - (e0 + 1))) := by
        simp [numRepr, ← hds_def, hm]
      rw [parseNumCore, hrepr]
      have hsign : parseNumSign ('-' :: (ds.take (ds.length - (e0 + 1)) ++
          '.' :: ds.drop (ds.length - (e0 + 1)))) =
          (-1, ds.take (ds.length - (e0 + 1)) ++ '.' :: ds.drop (ds.length - (e0 + 1))) := by
        simp [parseNumSign]
      rw [hsign, parseNumBody_frac _ htdig hddig hTne, hvc, hdlen]
      have habs : (m.natAbs : Int) = -m := by omega
      rw [habs]
      norm_num
    · have hrepr : numRepr m (e0 + 1) =
          ds.take (ds.length - (e0 + 1)) ++ '.' :: ds.drop (ds.length - (e0 + 1)) := by
        simp [numRepr, ← hds_def, hm]
      obtain ⟨c, cs, hcons⟩ : ∃ c cs, ds.take (ds.length - (e0 + 1)) = c :: cs := by
        cases hl : ds.take (ds.length - (e0 + 1)) with
        | nil => exact absurd hl hTne
        | cons c cs => exact ⟨c, cs, rfl⟩
      have hc : isDigitChar c = true :=
        htdig c (by rw [hcons]; exact List.mem_cons_self c cs)
      have hsign : parseNumSign (ds.take (ds.length - (e0 + 1)) ++
          '.' :: ds.drop (ds.length - (e0 + 1))) =
          (1, ds.take (ds.length - (e0 + 1)) ++ '.' :: ds.drop (ds.length - (e0 + 1))) := by
        rw [hcons, List.cons_append, parseNumSign_digit _ hc]
      rw [parseNumCore, hrepr, hsign, parseNumBody_frac _ htdig hddig hTne, hvc, hdlen]
      have habs : (m.natAbs : Int) = m := by omega
      rw [habs]
      norm_num

/-- `numRepr` is never empty. -/
theorem numRepr_ne_nil (m : Int) (e : Nat) : numRepr m e ≠ [] := by
  rcases Nat.eq_zero_or_pos e with he | he
  · subst he
    by_cases hm : m < 0 <;> simp [numRepr, intRepr, hm, natRepr_ne_nil]
  · obtain ⟨e0, rfl⟩ : ∃ e0, e = e0 + 1 := ⟨e - 1, by omega⟩
    by_cases hm : m < 0 <;> simp [numRepr, hm]

/-- Normalisation is the identity on canonical decimal fractions. -/
theorem normNum_self {m : Int} {e : Nat} (h : e = 0 ∨ ¬(10 : Int) ∣ m) :
    normNum e m = (m, e) := by
  match e with
  | 0 => rfl
  | e0 + 1 =>
    have hnd : ¬(10 : Int) ∣ m := h.resolve_left (by omega)
    have : m % 10 ≠ 0 := by omega
    simp [normNum, this]

/-- JavaScript `+`-conversion inverts `String` on canonical numbers. -/
theorem jsToNumber_numRepr {m : Int} {e : Nat} (h : e = 0 ∨ ¬(10 : Int) ∣ m) :
    jsToNumber (numRepr m e) = some (m, e) := by
  rw [jsToNumber, if_neg (numRepr_ne_nil m e), parseNumCore_numRepr]
  simp [normNum_self h]

/-- A list of digit characters never contains a given non-digit. -/
theorem not_mem_nondigit {l : List Char} (h : ∀ c ∈ l, isDigitChar c = true)
    {d : Char} (hd : isDigitChar d = false) : d ∉ l := by
  intro hm
  have := h d hm
  rw [this] at hd
  exact Bool.noConfusion hd

/-- The un-escaping pass is the identity on backslash-free strings. -/
theorem unescapeFuel_id : ∀ f l, '\\' ∉ l → unescapeFuel f l = l := by
  intro f
  induction f with
  | zero => intro l _; rfl
  | succ f ih =>
    intro l hl
    match l with
    | [] => rfl
    | c :: rest =>
      have hc : c ≠ '\\' := fun e => hl (e ▸ List.mem_cons_self c rest)
      have hr : '\\' ∉ rest := fun hm => hl (List.mem_cons_of_mem c hm)
      simp [unescapeFuel, hc, ih rest hr]

/-- `unescapeChars` identity on backslash-free strings. -/
theorem unescapeChars_id {l : List Char} (h : '\\' ∉ l) : unescapeChars l = l :=
  unescapeFuel_id _ l h

/-- `numRepr` contains only digits, `-` and `.`; any other character is
absent. -/
theorem numRepr_excl (m : Int) (e : Nat) {d : Char} (hd : isDigitChar d = false)
    (h1 : d ≠ '-') (h2 : d ≠ '.') : d ∉ numRepr m e := by
  intro hm
  rcases Nat.eq_zero_or_pos e with he | he
  · subst he
    rw [numRepr, if_pos rfl, intRepr] at hm
    by_cases hneg : m < 0
    · rw [if_pos hneg] at hm
      rcases List.mem_cons.mp hm with h | h
      · exact absurd h h1
      · exact not_mem_nondigit (natRepr_digits _) hd h
    · rw [if_neg hneg] at hm
      exact not_mem_nondigit (natRepr_digits _) hd hm
  · obtain ⟨e0, rfl⟩ : ∃ e0, e = e0 + 1 := ⟨e - 1, by omega⟩
    have hds : ∀ c ∈ padZero (e0 + 1 + 1) (natRepr m.natAbs), isDigitChar c = true :=
      padZero_digits (natRepr_digits m.natAbs)
    set ds := padZero (e0 + 1 + 1) (natRepr m.natAbs) with hds_def
    by_cases hneg : m < 0
    · have hrepr : numRepr m (e0 + 1) =
          '-' :: (ds.take (ds.length - (e0 + 1)) ++ '.' :: ds.drop (ds.length - (e0 + 1))) := by
        simp [numRepr, ← hds_def, hneg]
      rw [hrepr] at hm
      simp only [List.mem_cons, List.mem_append] at hm
      rcases hm with h | h
      · exact absurd h h1
      · rcases h with h | h
        · exact not_mem_nondigit hds hd (List.mem_of_mem_take h)
        · rcases h with h | h
          · exact absurd h h2
          · exact not_mem_nondigit hds hd (List.mem_of_mem_drop h)
    · have hrepr : numRepr m (e0 + 1) =
          ds.take (ds.length - (e0 + 1)) ++ '.' :: ds.drop (ds.length - (e0 + 1)) := by
        simp [numRepr, ← hds_def, hneg]
      rw [hrepr] at hm
      rcases List.mem_append.mp hm with h | h
      · exact not_mem_nondigit hds hd (List.mem_of_mem_take h)
      · rcases List.mem_cons.mp h with h | h
        · exact absurd h h2
        · exact not_mem_nondigit hds hd (List.mem_of_mem_drop h)

/-- `toISOString` contains only digits and the `- : . T Z` separators. -/
theorem toISOString_excl (dt : JSDate) {d : Char} (hd : isDigitChar d = false)
    (h1 : d ≠ '-') (h2 : d ≠ '.') (h3 : d ≠ ':') (h4 : d ≠ 'T') (h5 : d ≠ 'Z') :
    d ∉ toISOString dt := by
  intro hm
  rw [toISOString] at hm
  have hp : ∀ k n : Nat, d ∉ padNat k n := fun k n =>
    not_mem_nondigit (padZero_digits (natRepr_digits n)) hd
  simp only [List.mem_append, List.mem_cons, List.mem_singleton] at hm
  casesm* _ ∨ _ <;>
    first
      | exact hp _ _ (by assumption)
      | (rename_i h; exact absurd h h1)
      | (rename_i h; exact absurd h h2)
      | (rename_i h; exact absurd h h3)
      | (rename_i h; exact absurd h h4)
      | (rename_i h; exact absurd h h5)
      | (rename_i h; exact absurd h (List.not_mem_nil _))

/-- Explicit form of a length-4 list. -/
theorem listLength_eq_four {α : Type} {l : List α} (h : l.length = 4) :
    ∃ a b c d, l = [a, b, c, d] := by
  obtain ⟨a, t, rfl⟩ := List.exists_of_length_succ l h
  have ht : t.length = 3 := by simpa using h
  obtain ⟨b, c, d, rfl⟩ := List.length_eq_three.mp ht
  exact ⟨a, b, c, d, rfl⟩

/-- Months never exceed 31 days. -/
theorem daysInMonth_le (y m : Nat) : daysInMonth y m ≤ 31 := by
  rw [daysInMonth]
  split_ifs <;> norm_num

/-- Strict ISO parsing inverts `toISOString` on valid dates. -/
theorem parseISO_toISO {d : JSDate} (h : validDate d = true) :
    parseISOChars (toISOString d) = .date d := by
  have hv : d.year ≤ 9999 ∧ 1 ≤ d.month ∧ d.month ≤ 12 ∧ 1 ≤ d.day ∧
      d.day ≤ daysInMonth d.year d.month ∧ d.hour ≤ 23 ∧ d.minute ≤ 59 ∧
      d.second ≤ 59 ∧ d.ms ≤ 999 := by
    simpa [validDate, Bool.and_eq_true, decide_eq_true_eq, and_assoc] using h
  obtain ⟨hy, hmo1, hmo2, hd1, hd2, hh, hmin, hs, hms⟩ := hv
  obtain ⟨hl4, hg4, hv4⟩ := padNat_spec (k := 4) (n := d.year) (by norm_num) (by omega)
  obtain ⟨hlmo, hgmo, hvmo⟩ := padNat_spec (k := 2) (n := d.month) (by norm_num) (by omega)
  have hday100 : d.day < 100 := by have := daysInMonth_le d.year d.month; omega
  obtain ⟨hld, hgd, hvd⟩ := padNat_spec (k := 2) (n := d.day) (by norm_num) (by omega)
  obtain ⟨hlh, hgh, hvh⟩ := padNat_spec (k := 2) (n := d.hour) (by norm_num) (by omega)
  obtain ⟨hlmi, hgmi, hvmi⟩ := padNat_spec (k := 2) (n := d.minute) (by norm_num) (by omega)
  obtain ⟨hls, hgs, hvs⟩ := padNat_spec (k := 2) (n := d.second) (by norm_num) (by omega)
  obtain ⟨hlms, hgms, hvms⟩ := padNat_spec (k := 3) (n := d.ms) (by norm_num) (by omega)
  obtain ⟨y1, y2, y3, y4, hY⟩ := listLength_eq_four hl4
  obtain ⟨m1, m2, hMo⟩ := List.length_eq_two.mp hlmo
  obtain ⟨d1, d2, hD⟩ := List.length_eq_two.mp hld
  obtain ⟨h1, h2, hH⟩ := List.length_eq_two.mp hlh
  obtain ⟨n1, n2, hMi⟩ := List.length_eq_two.mp hlmi
  obtain ⟨s1, s2, hS⟩ := List.length_eq_two.mp hls
  obtain ⟨f1, f2, f3, hMs⟩ := List.length_eq_three.mp hlms
  rw [hY] at hg4 hv4
  rw [hMo] at hgmo hvmo
  rw [hD] at hgd hvd
  rw [hH] at hgh hvh
  rw [hMi] at hgmi hvmi
  rw [hS] at hgs hvs
  rw [hMs] at hgms hvms
  have hiso : toISOString d = [y1, y2, y3, y4, '-', m1, m2, '-', d1, d2, 'T', h1, h2, ':',
      n1, n2, ':', s1, s2, '.', f1, f2, f3, 'Z'] := by
    rw [toISOString, hY, hMo, hD, hH, hMi, hS, hMs]
    rfl
  rw [hiso]
  have hall : [y1, y2, y3, y4, m1, m2, d1, d2, h1, h2, n1, n2, s1, s2,
      f1, f2, f3].all isDigitChar = true := by
    simp only [List.all_eq_true]
    intro c hc
    simp only [List.mem_cons, List.not_mem_nil, or_false] at hc
    rcases hc with rfl | rfl | rfl | rfl | rfl | rfl | rfl | rfl | rfl | rfl | rfl | rfl
      | rfl | rfl | rfl | rfl | rfl
    · exact hg4 c (by simp)
    · exact hg4 c (by simp)
    · exact hg4 c (by simp)
    · exact hg4 c (by simp)
    · exact hgmo c (by simp)
    · exact hgmo c (by simp)
    · exact hgd c (by simp)
    · exact hgd c (by simp)
    · exact hgh c (by simp)
    · exact hgh c (by simp)
    · exact hgmi c (by simp)
    · exact hgmi c (by simp)
    · exact hgs c (by simp)
    · exact hgs c (by simp)
    · exact hgms c (by simp)
    · exact hgms c (by simp)
    · exact hgms c (by simp)
  have hrec : JSDate.mk (chsVal [y1, y2, y3, y4]) (chsVal [m1, m2]) (chsVal [d1, d2])
      (chsVal [h1, h2]) (chsVal [n1, n2]) (chsVal [s1, s2]) (chsVal [f1, f2, f3]) = d := by
    rw [hv4, hvmo, hvd, hvh, hvmi, hvs, hvms]
  simp only [parseISOChars, hall, if_true]
  rw [hrec, if_pos h]

/-- `serializeJcrValue` on a string whose head is not `[` or `{` is the
string itself. -/
theorem serializeChars_str (s : String) (h1 : s.data.head? ≠ some '[')
    (h2 : s.data.head? ≠ some '\x7b') : serializeChars (.str s) = s.data := by
  cases hd : s.data with
  | nil => simp [serializeChars, formatChars, hd]
  | cons c rest =>
    rw [hd] at h1 h2
    have hc1 : c ≠ '[' := by intro e; subst e; exact h1 rfl
    have hc2 : c ≠ '\x7b' := by intro e; subst e; exact h2 rfl
    simp [serializeChars, formatChars, hd, hc1, hc2]

/-- `serializeJcrValue` on a number renders it unchanged. -/
theorem serializeChars_num (m : Int) (e : Nat) : serializeChars (.num m e) = numRepr m e := by
  cases hd : numRepr m e with
  | nil => exact absurd hd (numRepr_ne_nil m e)
  | cons c rest =>
    have hmem : c ∈ numRepr m e := by rw [hd]; exact List.mem_cons_self c rest
    have hc1 : c ≠ '[' := fun heq =>
      numRepr_excl m e (by decide) (by decide) (by decide) (heq ▸ hmem)
    have hc2 : c ≠ '\x7b' := fun heq =>
      numRepr_excl m e (by decide) (by decide) (by decide) (heq ▸ hmem)
    simp [serializeChars, formatChars, hd, hc1, hc2]

/-- `serializeJcrValue` on a date renders the ISO string unchanged. -/
theorem serializeChars_date (d : JSDate) : serializeChars (.date d) = toISOString d := by
  cases hd : toISOString d with
  | nil =>
    have hlen := congrArg List.length hd
    rw [toISOString] at hlen
    simp [List.length_append] at hlen
  | cons c rest =>
    have hmem : c ∈ toISOString d := by rw [hd]; exact List.mem_cons_self c rest
    have hc1 : c ≠ '[' := fun heq =>
      toISOString_excl d (by decide) (by decide) (by decide) (by decide) (by decide)
        (by decide) (heq ▸ hmem)
    have hc2 : c ≠ '\x7b' := fun heq =>
      toISOString_excl d (by decide) (by decide) (by decide) (by decide) (by decide)
        (by decide) (heq ▸ hmem)
    simp [serializeChars, formatChars, hd, hc1, hc2]

/-- The scalar values for which the serialize/deserialize round trip can
hold on the code: booleans, canonical numbers, valid dates, and strings
that contain no backslash (the un-escaping pass of `parseJcrValue` is
not inverted by `serializeJcrValue`) and do not start with `[` or `{`
(the leading-bracket escape emits the literal `\$1`, see the C9
analysis). -/
def RoundTrippable : JValue → Prop
  | .str s => '\\' ∉ s.data ∧ s.data.head? ≠ some '[' ∧ s.data.head? ≠ some '\x7b'
  | .bool _ => True
  | .num m e => e = 0 ∨ ¬(10 : Int) ∣ m
  | .date d => validDate d = true
  | _ => False

/-- C2 (amended): for every supported scalar value `v` — a boolean, a
canonically represented number (long or double), a valid date, or a
string that contains no backslash and does not start with `[` or `{` —
deserializing the serialized form of `v` with `v`'s own inferred tag
`getJcrValueType v` yields `v`.  (As stated the claim fails: strings
containing backslash escape sequences, or starting with `[` or `{`, are
altered by the un-escaping pass or the broken bracket escape; see the
counterexample.) -/
theorem C2_scalar_roundtrip_amended (v : JValue) (h : RoundTrippable v) :
    parseJcrValue (serializeChars v) (getJcrValueType v) = v := by
  match v with
  | .str s =>
    obtain ⟨hnb, hh1, hh2⟩ := h
    rw [serializeChars_str s hh1 hh2]
    show parseJcrValue s.data VALUE_TYPE.string = .str s
    have hne : s.data ≠ ['\\', '0'] := fun e => hnb (by rw [e]; exact List.mem_cons_self _ _)
    simp only [parseJcrValue, unescapeChars_id hnb]
    simp [VALUE_TYPE.string, VALUE_TYPE.boolean, VALUE_TYPE.date, VALUE_TYPE.double,
      VALUE_TYPE.long, hne]
  | .bool b => cases b <;> rfl
  | .num m e =>
    rw [serializeChars_num m e]
    have hnb : '\\' ∉ numRepr m e := numRepr_excl m e (by decide) (by decide) (by decide)
    rcases Nat.eq_zero_or_pos e with he | he
    · subst he
      show parseJcrValue (numRepr m 0) VALUE_TYPE.long = .num m 0
      simp only [parseJcrValue, unescapeChars_id hnb]
      rw [jsToNumber_numRepr (Or.inl rfl)]
      simp [VALUE_TYPE.long, VALUE_TYPE.boolean, VALUE_TYPE.date, VALUE_TYPE.double]
    · have hgt : getJcrValueType (.num m e) = VALUE_TYPE.double := by
        rw [getJcrValueType, if_neg (by omega)]
      rw [hgt]
      have hcanon : e = 0 ∨ ¬(10 : Int) ∣ m := h
      simp only [parseJcrValue, unescapeChars_id hnb]
      rw [jsToNumber_numRepr hcanon]
      simp [VALUE_TYPE.long, VALUE_TYPE.boolean, VALUE_TYPE.date, VALUE_TYPE.double]
  | .date d =>
    rw [serializeChars_date d]
    have hnb : '\\' ∉ toISOString d :=
      toISOString_excl d (by decide) (by decide) (by decide) (by decide) (by decide) (by decide)
    show parseJcrValue (toISOString d) VALUE_TYPE.date = .date d
    simp only [parseJcrValue, unescapeChars_id hnb]
    rw [parseISO_toISO h]
    simp [VALUE_TYPE.date, VALUE_TYPE.boolean]
  | .nan => exact h.elim
  | .invalidDate => exact h.elim
  | .arr xs => exact h.elim
  | .obj fs => exact h.elim

/-- Witness for C2 (amended) at the double `1.5`, the long `-42`, a
string and a date. -/
theorem C2_scalar_roundtrip_amended_witness :
    (RoundTrippable (JValue.num 15 1) ∧
      parseJcrValue (serializeChars (JValue.num 15 1)) (getJcrValueType (JValue.num 15 1)) =
        JValue.num 15 1) ∧
    (RoundTrippable (JValue.str "hello") ∧
      parseJcrValue (serializeChars (JValue.str "hello"))
        (getJcrValueType (JValue.str "hello")) = JValue.str "hello") :=
  ⟨⟨Or.inr (by decide), C2_scalar_roundtrip_amended (JValue.num 15 1) (Or.inr (by decide))⟩,
   ⟨⟨by decide, by decide, by decide⟩,
    C2_scalar_roundtrip_amended (JValue.str "hello") ⟨by decide, by decide, by decide⟩⟩⟩

/-- C2 counterexample: the string `\,` (backslash, comma) serializes to
itself, but deserializing with the `String` tag un-escapes `\,` to `,`,
so the round trip returns a different string. -/
theorem C2_scalar_roundtrip_counterexample :
    parseJcrValue (serializeChars (JValue.str "\\,")) (getJcrValueType (JValue.str "\\,")) =
      JValue.str "," ∧ JValue.str "," ≠ JValue.str "\\," := by
  refine ⟨rfl, fun hEq => ?_⟩
  injection hEq with h2
  exact absurd h2 (by decide)

/-- C3: evaluation of the codec at the claimed inputs.  `[]` serializes
to `[]` and `[""]` to the `[\0]` marker, but the `matchAll` element
loop of `unserializeJcrValue` keeps a spurious empty match at index 1
of `[]` (the initial `[` match at index 0 never updates `lastIndex`),
so *both* serialized forms deserialize to `[""]`: the empty array does
not round-trip and the two forms are not distinguished. -/
theorem C3_empty_array_collapse :
    serializeJcrValue (JValue.arr []) = "[]" ∧
    serializeJcrValue (JValue.arr [.str ""]) = "[\\0]" ∧
    (unserializeJcrValue "[]".data).1 = JValue.arr [.str ""] ∧
    (unserializeJcrValue "[\\0]".data).1 = JValue.arr [.str ""] :=
  ⟨rfl, rfl, rfl, rfl⟩

/-- C9: evaluation of `serializeJcrValue` at a scalar whose rendering
starts with `[`.  The escape `replace(/^[\[{]/, '\\$1')` has no capture
group, so JavaScript substitutes the literal text `$1`: the output is
`\$1abc`, not the claimed `\[abc` (backslash followed by the original
first character). -/
theorem C9_leading_bracket_escape_bug :
    serializeJcrValue (JValue.str "[abc") = "\\$1abc" ∧
    serializeJcrValue (JValue.str "\x7babc") = "\\$1abc" ∧
    "\\$1abc" ≠ "\\[abc" :=
  ⟨rfl, rfl, by decide⟩

/-! ### The diff-based property writer (`saveJcrProperties.processNode`) -/

/-- Transport-level error: an HTTP error response (`FetchError`, whose
`message` is `Server returned {status}`) or any other `Error`. -/
inductive TErr where
  | fetchError (status : Nat)
  | error (msg : String)
deriving Repr, DecidableEq

/-- The `message` property of the thrown error object. -/
def TErr.message : TErr → String
  | .fetchError s => "Server returned " ++ Nat.repr s
  | .error m => m

/-- The HTTP transport (`client` of `core/client.ts`): fetch a node's
JSON at a path and depth, and POST a multipart field list, returning
the changed paths of the Sling response.  A parameter of the model. -/
structure Transport where
  fetchJSON : List String → Int → Except TErr JValue
  post : List String → List (String × String) → Except TErr (List String)

/-- One request issued by the writer: a POST of a field map to a path
(node deletion is a POST of `{':operation': 'delete'}`). -/
inductive Event where
  | post (path : List String) (form : List (String × String))
deriving Repr, DecidableEq

/-- `SaveOptions` of `repo.ts`. -/
structure SaveOptions where
  ignoreProps : List String := []
  deleteProps : Bool := false
  deleteChildren : Bool := false
deriving Repr

/-- The combined ignored-property list of `saveJcrProperties`. -/
def ignoredOf (opts : SaveOptions) : List String := internalProps ++ opts.ignoreProps

/-- `ignoredProps.forEach(v => delete data[v])`. -/
def scrub (ignored : List String) (fs : List (String × JValue)) : List (String × JValue) :=
  fs.filter (fun kv => !ignored.contains kv.1)

/-- JavaScript object key lookup on the association-list model (keys
are unique in a JS object). -/
def lookupF (fs : List (String × JValue)) (k : String) : Option JValue :=
  (fs.find? (fun kv => kv.1 = k)).map (fun kv => kv.2)

/-- `i[0] === ':'`: reserved type-hint metadata key. -/
def keyIsMeta (k : String) : Bool := k.data.head? = some ':'

/-- Truthiness of an optional lookup (`undefined` is falsy). -/
def jsTruthyOpt : Option JValue → Bool
  | some v => jsTruthy v
  | none => false

/-- First loop of `processNode`, `:`-keys: metadata present remotely but
absent from the desired tree is copied into it (in current-data order). -/
def backfills (cur1 props1 : List (String × JValue)) : List (String × JValue) :=
  cur1.filter (fun kv => (lookupF props1 kv.1).isNone && keyIsMeta kv.1)

/-- First loop of `processNode`, child nodes: children present remotely
but absent from the desired tree, scheduled for deletion when
`deleteChildren` is set. -/
def childrenToDelete (opts : SaveOptions) (cur1 props1 : List (String × JValue)) :
    List String :=
  if opts.deleteChildren then
    (cur1.filter (fun kv =>
      (lookupF props1 kv.1).isNone && !keyIsMeta kv.1 && isChildNode kv.2)).map (fun kv => kv.1)
  else []

/-- First loop of `processNode`, plain properties: `{name}@Delete`
entries, emitted only when `deleteProps` is set and the desired tree
has a truthy `jcr:primaryType` (placeholder-tag guard). -/
def deleteEntries (opts : SaveOptions) (cur1 props1 : List (String × JValue)) :
    List (String × String) :=
  if opts.deleteProps && jsTruthyOpt (lookupF props1 PROP.jcrPrimaryType) then
    (cur1.filter (fun kv =>
      (lookupF props1 kv.1).isNone && !keyIsMeta kv.1 && !isChildNode kv.2)).map
      (fun kv => (kv.1 ++ "@Delete", ""))
  else []

/-- JavaScript `.length` member access on a value (`undefined` for
values without one). -/
def jsLength : JValue → Option Nat
  | .arr xs => some xs.length
  | .str s => some s.length
  | _ => none

/-- JavaScript indexed access `v[j]` (array element, or one-character
string for string indexing). -/
def jsIndex : JValue → Nat → Option JValue
  | .arr xs, j => xs.get? j
  | .str s, j => (s.data.get? j).map (fun c => .str ⟨[c]⟩)
  | _, _ => none

/-- JavaScript strict equality `===` as used on array elements.  The
two operands always come from distinct object graphs here (the desired
tree vs freshly fetched JSON), so object, array and date operands —
compared by reference in JavaScript — are never equal; `NaN === NaN` is
false. -/
def jsStrictEq : JValue → JValue → Bool
  | .str a, .str b => a = b
  | .bool a, .bool b => a = b
  | .num a ea, .num b eb => a = b && ea = eb
  | _, _ => false

/-- The array skip test
`value.length === currentData[i]?.length && value.every((v, j) => v === currentData[i][j])`. -/
def arrayEqCheck (xs : List JValue) (curv : Option JValue) : Bool :=
  match curv with
  | none => false
  | some cv =>
    (jsLength cv == some xs.length) &&
    xs.enum.all (fun p =>
      match jsIndex cv p.1 with
      | some b => jsStrictEq p.2 b
      | none => false)

/-- Truthiness of `currentData[i]?.length`. -/
def lenTruthy : Option JValue → Bool
  | some v =>
    match jsLength v with
    | some n => n ≠ 0
    | none => false
  | none => false

/-- `String(currentData[i])` where the lookup may be `undefined`. -/
def formatOpt : Option JValue → String
  | some v => formatJcrValue v
  | none => "undefined"

/-- `properties[':' + i] || getJcrValueType(value)` followed by
`if (typeHint) formData.append(i + '@TypeHint', typeHint)`: a truthy
explicit hint wins (stringified into the form), else the inferred tag
when nonempty. -/
def typeHintEntries (props2 : List (String × JValue)) (i : String) (tVal : String) :
    List (String × String) :=
  match lookupF props2 (":" ++ i) with
  | some hv =>
    if jsTruthy hv then [(i ++ "@TypeHint", formatJcrValue hv)]
    else if tVal = "" then [] else [(i ++ "@TypeHint", tVal)]
  | none => if tVal = "" then [] else [(i ++ "@TypeHint", tVal)]

/-- Second loop of `processNode`, one key: form entries contributed by
the key plus its contribution to `childProps`.  Skipped `:`-keys and
unchanged values yield nothing; an empty desired array against a
non-empty current array emits a removal patch (`@Patch=true` plus one
negated entry per current element); other changed arrays are fully
replaced; values with no inferable type are deferred to the child
recursion; changed scalars are formatted and emitted.  A `forEach` call
on a non-array current value with truthy length throws. -/
def entriesForKey (cur1 props2 : List (String × JValue)) (kv : String × JValue) :
    Except String (List (String × String) × List (String × JValue)) :=
  if keyIsMeta kv.1 then .ok ([], [])
  else
    match kv.2 with
    | .arr xs =>
      if arrayEqCheck xs (lookupF cur1 kv.1) then .ok ([], [])
      else if xs.isEmpty && lenTruthy (lookupF cur1 kv.1) then
        match lookupF cur1 kv.1 with
        | some (.arr cs) =>
          .ok ((kv.1 ++ "@Patch", "true") ::
                cs.map (fun c => (kv.1, "-" ++ formatJcrValue c)) ++
                typeHintEntries props2 kv.1 (getJcrValueType (.arr xs)), [])
        | _ => .error "currentData[i].forEach is not a function"
      else
        .ok (xs.map (fun x => (kv.1, formatJcrValue x)) ++
              typeHintEntries props2 kv.1 (getJcrValueType (.arr xs)), [])
    | v =>
      if getJcrValueType v = "" then
        .ok (typeHintEntries props2 kv.1 (getJcrValueType v), [(kv.1, v)])
      else
        if formatJcrValue v = formatOpt (lookupF cur1 kv.1) then .ok ([], [])
        else
          .ok ((kv.1, formatJcrValue v) ::
                typeHintEntries props2 kv.1 (getJcrValueType (.str (formatJcrValue v))), [])

/-- The second loop over a tail of the (backfilled) desired key list;
`props2` stays whole for the `':' + i` hint lookups. -/
def buildBodyGo (cur1 props2 : List (String × JValue)) :
    List (String × JValue) → Except String (List (String × String) × List (String × JValue))
  | [] => .ok ([], [])
  | kv :: rest => do
    let r ← entriesForKey cur1 props2 kv
    let rs ← buildBodyGo cur1 props2 rest
    pure (r.1 ++ rs.1, r.2 ++ rs.2)

/-- The whole second loop over the (backfilled) desired keys. -/
def buildBody (cur1 props2 : List (String × JValue)) :
    Except String (List (String × String) × List (String × JValue)) :=
  buildBodyGo cur1 props2 props2

/-- Everything `processNode` computes for one level before issuing
requests: the form entries (deletions first, then the second loop), the
nested child trees, and the children to delete. -/
structure LevelPlan where
  form : List (String × String)
  childProps : List (String × JValue)
  childDeletions : List String
deriving Repr

/-- Plan one `processNode` level from the fetched current data and the
desired properties. -/
def planLevel (opts : SaveOptions) (cur props : List (String × JValue)) :
    Except String LevelPlan :=
  let cur1 := scrub (ignoredOf opts) cur
  let props1 := scrub (ignoredOf opts) props
  let props2 := props1 ++ backfills cur1 props1
  (buildBody cur1 props2).map (fun bc =>
    ⟨deleteEntries opts cur1 props1 ++ bc.1, bc.2, childrenToDelete opts cur1 props1⟩)

/-- Fields of a fetched JSON node (always an object at the paths the
writer touches). -/
def jfieldsOf : JValue → List (String × JValue)
  | .obj fs => fs
  | _ => []

/-- Path rendering for log/error messages. -/
def pathString (path : List String) : String :=
  String.intercalate "/" path

/-- Mode bit `FETCH_FILTER`. -/
def FETCH_FILTER : Nat := 1

/-- Mode bit `FETCH_FILTER_CHILDREN`. -/
def FETCH_FILTER_CHILDREN : Nat := 2

/-- Mode bit `FETCH_RECURSIVE`. -/
def FETCH_RECURSIVE : Nat := 4

/-- `FetchMode.Normal`. -/
def FetchMode.Normal : Nat := 0

/-- `FetchMode.Property`. -/
def FetchMode.Property : Nat := FETCH_FILTER

/-- `FetchMode.Children`. -/
def FetchMode.Children : Nat := FETCH_FILTER ||| FETCH_FILTER_CHILDREN

/-- `FetchMode.Recursive`. -/
def FetchMode.Recursive : Nat := FETCH_RECURSIVE

/-- `FetchMode.RecursiveChildren`. -/
def FetchMode.RecursiveChildren : Nat := FETCH_FILTER ||| FETCH_FILTER_CHILDREN ||| FETCH_RECURSIVE

/-- `cleanData` of `fetchJcrNode` with fuel: keep exactly the entries
whose child-node status equals `keepChildren`, and when both
`keepChildren` and `recursive` hold, clean every kept child the same
way. -/
def cleanDataFuel : Nat → Bool → Bool → JValue → JValue
  | 0, _, _, v => v
  | f + 1, keep, recur, .obj fs =>
    .obj ((fs.filter (fun kv => isChildNode kv.2 = keep)).map
      (fun kv => if keep && recur then (kv.1, cleanDataFuel f keep recur kv.2) else kv))
  | _, _, _, v => v

/-- `cleanData` with sufficient fuel. -/
def cleanData (keep recur : Bool) (v : JValue) : JValue :=
  cleanDataFuel (jsize v) keep recur v

/-- `fetchJcrNode` of `repo.ts`: resolve the request depth from the
mode (`depth = (mode & FETCH_FILTER_CHILDREN) >> 1` unless
`FETCH_RECURSIVE`), fetch the JSON, and apply `cleanData` when
`FETCH_FILTER` is set. -/
def fetchJcrNode (tr : Transport) (path : List String) (mode : Nat) (depth : Int) :
    Except TErr JValue :=
  let depth2 : Int := if mode &&& FETCH_RECURSIVE = 0
    then (((mode &&& FETCH_FILTER_CHILDREN) >>> 1 : Nat) : Int) else depth
  (tr.fetchJSON path depth2).map (fun data =>
    if mode &&& FETCH_FILTER ≠ 0 then
      cleanData (mode &&& FETCH_FILTER_CHILDREN != 0) (mode &&& FETCH_RECURSIVE != 0) data
    else data)

mutual

/-- The recursive body of `saveJcrProperties` (`processNode`), with
structural fuel standing in for the recursion on the (acyclic) desired
object graph.  It returns the trace of POST requests issued and the
accumulated `changes` list.  The current node is fetched non-recursively
(`fetchJcrNode(jcrPath)`, a 404 meaning "node does not exist yet" and an
empty current tree), the level is planned, the single write for the
level is posted if its form is nonempty (with the `:order` directive
appended when an order index was supplied), absent children are deleted
(`deleteJcrNode`; the `Promise.all` of the source is sequentialised, and
its assertion that the delete changed something becomes an error), and
the nested child trees are processed *sequentially* in desired order,
passing each child its positional index as order exactly when the
remaining current children disagree with the desired key sequence
(`reorder && i`, where `0` still triggers the directive since
`0 !== false`). -/
def processNodeF (tr : Transport) (opts : SaveOptions) :
    Nat → List String → List (String × JValue) → Option Nat →
    Except TErr (List Event × List String)
  | 0, _, _, _ => .error (.error "recursion fuel exhausted")
  | fuel + 1, path, props, order => do
    let cur ← match fetchJcrNode tr path FetchMode.Normal (-1) with
      | .ok d => Except.ok (jfieldsOf d)
      | .error (.fetchError s) =>
        if s = 404 then Except.ok ([] : List (String × JValue))
        else Except.error (TErr.fetchError s)
      | .error e => Except.error e
    match planLevel opts cur props with
    | .error m => Except.error (.error m)
    | .ok plan => do
      let form := plan.form ++
        (match order with
         | some n => [((":order" : String), Nat.repr n)]
         | none => [])
      let r1 ← if form.isEmpty then Except.ok (([], []) : List Event × List String)
        else (tr.post path form).map (fun chs => ([Event.post path form], chs))
      let ev2 ← plan.childDeletions.foldlM (fun acc name =>
        match tr.post (path ++ [name]) [((":operation" : String), "delete")] with
        | .ok chs =>
          if chs.isEmpty then
            Except.error (TErr.error
              ("Unable to delete " ++ pathString (path ++ [name]) ++ ": assertion failed"))
          else Except.ok (acc ++ [Event.post (path ++ [name]) [(":operation", "delete")]])
        | .error e =>
          Except.error (TErr.error
            ("Unable to delete " ++ pathString (path ++ [name]) ++ ": " ++ e.message)))
        ([] : List Event)
      let keys := plan.childProps.map Prod.fst
      let filtered := ((scrub (ignoredOf opts) cur).map Prod.fst).filter
        (fun v => (lookupF plan.childProps v).isSome)
      let reorder := filtered.enum.any (fun p => decide (keys.get? p.1 ≠ some p.2))
      let res ← processChildrenF tr opts fuel path reorder 0 plan.childProps
      pure (r1.1 ++ ev2 ++ res.1, r1.2 ++ res.2)

/-- The sequential `for` loop over the nested child trees: process each
child in desired order, passing `some index` as its order exactly when
`reorder` holds. -/
def processChildrenF (tr : Transport) (opts : SaveOptions) :
    Nat → List String → Bool → Nat → List (String × JValue) →
    Except TErr (List Event × List String)
  | 0, _, _, _, _ => .error (.error "recursion fuel exhausted")
  | _ + 1, _, _, _, [] => .ok ([], [])
  | fuel + 1, path, reorder, idx, kv :: rest => do
    let r ← processNodeF tr opts fuel (path ++ [kv.1]) (jfieldsOf kv.2)
      (if reorder then some idx else none)
    let rs ← processChildrenF tr opts fuel path reorder (idx + 1) rest
    pure (r.1 ++ rs.1, r.2 ++ rs.2)

end

/-- `saveJcrProperties` of `repo.ts`: run `processNode` at the root
(with `order = false`) and wrap any failure in an `OperationError`
whose message is `Unable to update {path}: {err.message}`.  The model
returns the issued request trace and the changed paths. -/
def saveJcrProperties (tr : Transport) (path : List String)
    (props : List (String × JValue)) (opts : SaveOptions) :
    Except String (List Event × List String) :=
  match processNodeF tr opts (2 * jsizeFields props + 2) path props none with
  | .ok r => .ok r
  | .error e => .error ("Unable to update " ++ pathString path ++ ": " ++ e.message)

/-- Navigate a remote tree to the node at `path`. -/
def nodeAt : JValue → List String → Option JValue
  | v, [] => some v
  | .obj fs, k :: rest =>
    match lookupF fs k with
    | some v => nodeAt v rest
    | none => none
  | _, _ :: _ => none

/-- Depth-limited server-side JSON rendering.  Modelled from the spec
(§4.3, glossary "Placeholder child"): the repository JSON servlet
renders a node's properties and its children down to the requested
depth, a child at the cut appearing as an opaque empty object
placeholder; a negative depth renders the full subtree. -/
def truncateFuel : Nat → Int → JValue → JValue
  | 0, _, v => v
  | f + 1, depth, .obj fs =>
    .obj (fs.map (fun kv =>
      if isChildNode kv.2 then
        if depth ≤ 0 then (kv.1, .obj []) else (kv.1, truncateFuel f (depth - 1) kv.2)
      else kv))
  | _, _, v => v

/-- Depth-limited rendering with sufficient fuel; negative depth means
the full subtree. -/
def truncateDepth (depth : Int) (v : JValue) : JValue :=
  if depth < 0 then v else truncateFuel (jsize v) depth v

/-- A transport backed by a remote tree `root`: `fetchJSON` renders the
node at the path to the requested depth (404 when absent), and every
POST succeeds, reporting the posted path as changed. -/
def serverOf (root : JValue) : Transport where
  fetchJSON := fun path depth =>
    match nodeAt root path with
    | some v => .ok (truncateDepth depth v)
    | none => .error (.fetchError 404)
  post := fun path _ => .ok [pathString path]

/-! ### Infrastructure for reasoning about the writer -/

/-- The field name an entry belongs to: everything before the first `@`
(control suffixes `@Delete`, `@TypeHint`, `@Patch` attach to the name
before the `@`). -/
def entryKeyBase (s : String) : String := ⟨s.data.takeWhile (fun c => c != '@')⟩

/-- The control suffix of an entry key: everything from the first `@`. -/
def entrySuffix (s : String) : String := ⟨s.data.dropWhile (fun c => c != '@')⟩

/-- A field list whose names carry no `@` (JCR names never do). -/
def atFree (fs : List (String × JValue)) : Prop := ∀ kv ∈ fs, '@' ∉ kv.1.data

/-- A plain name is its own entry base. -/
theorem entryKeyBase_atFree {a : String} (h : '@' ∉ a.data) : entryKeyBase a = a := by
  have hself : a.data.takeWhile (fun c => c != '@') = a.data :=
    List.takeWhile_eq_self_iff.mpr (fun c hc => by
      simp only [bne_iff_ne, ne_eq, decide_eq_true_eq]
      intro e
      exact h (e ▸ hc))
  unfold entryKeyBase
  rw [hself]

/-- A plain name has an empty control suffix. -/
theorem entrySuffix_atFree {a : String} (h : '@' ∉ a.data) : entrySuffix a = "" := by
  have hnil : a.data.dropWhile (fun c => c != '@') = [] :=
    List.dropWhile_eq_nil_iff.mpr (fun c hc => by
      simp only [bne_iff_ne, ne_eq, decide_eq_true_eq]
      intro e
      exact h (e ▸ hc))
  unfold entrySuffix
  rw [hnil]

/-- Base and suffix of `name ++ "@Xyz"` for a plain `name`. -/
theorem entryKeyBase_append {a b : String} (ha : '@' ∉ a.data)
    (hb : b.data.head? = some '@') : entryKeyBase (a ++ b) = a ∧ entrySuffix (a ++ b) = b := by
  obtain ⟨rest, hrest⟩ : ∃ rest, b.data = '@' :: rest := by
    cases hd : b.data with
    | nil => rw [hd] at hb; exact absurd hb (by simp)
    | cons c cs =>
      rw [hd] at hb
      simp only [List.head?_cons, Option.some.injEq] at hb
      exact ⟨cs, by rw [hb]⟩
  have hsplit := takeWhile_append_stop (p := fun c => c != '@') (y := '@') rest
    (fun x hx => by
      simp only [bne_iff_ne, ne_eq, decide_eq_true_eq]
      intro e
      exact ha (e ▸ hx))
    (by simp)
  have hdata : (a ++ b).data = a.data ++ '@' :: rest := by
    simp [hrest]
  constructor
  · unfold entryKeyBase
    rw [hdata, hsplit.1]
  · unfold entrySuffix
    rw [hdata, hsplit.2, ← hrest]

/-- Membership characterisation of a failed lookup. -/
theorem lookupF_eq_none_iff {fs : List (String × JValue)} {k : String} :
    lookupF fs k = none ↔ ∀ kv ∈ fs, kv.1 ≠ k := by
  rw [lookupF, Option.map_eq_none', List.find?_eq_none]
  constructor
  · intro h kv hkv
    have := h kv hkv
    simpa using this
  · intro h kv hkv
    simpa using h kv hkv

/-- Lookup in a filtered list still fails. -/
theorem lookupF_filter_none {fs : List (String × JValue)} {k : String}
    (p : String × JValue → Bool) (h : lookupF fs k = none) :
    lookupF (fs.filter p) k = none :=
  lookupF_eq_none_iff.mpr (fun kv hkv =>
    lookupF_eq_none_iff.mp h kv (List.mem_of_mem_filter hkv))

/-- Lookup in an append of two failing lists fails. -/
theorem lookupF_append_none {a b : List (String × JValue)} {k : String}
    (ha : lookupF a k = none) (hb : lookupF b k = none) :
    lookupF (a ++ b) k = none :=
  lookupF_eq_none_iff.mpr (fun kv hkv => by
    rcases List.mem_append.mp hkv with h | h
    · exact lookupF_eq_none_iff.mp ha kv h
    · exact lookupF_eq_none_iff.mp hb kv h)

/-- A successful lookup returns a value stored under the key. -/
theorem lookupF_mem {fs : List (String × JValue)} {k : String} {v : JValue}
    (h : lookupF fs k = some v) : (k, v) ∈ fs := by
  rw [lookupF, Option.map_eq_some'] at h
  obtain ⟨kv, hfind, hv⟩ := h
  have hmem := List.mem_of_find?_eq_some hfind
  have hkey := List.find?_some hfind
  simp only [decide_eq_true_eq] at hkey
  have : kv = (k, v) := by
    cases kv
    simp only [Prod.mk.injEq]
    exact ⟨hkey, hv⟩
  exact this ▸ hmem

/-- Every backfilled entry is a metadata entry of the current data. -/
theorem backfills_mem {cur1 props1 : List (String × JValue)} {kv : String × JValue}
    (h : kv ∈ backfills cur1 props1) : kv ∈ cur1 ∧ keyIsMeta kv.1 = true := by
  rw [backfills] at h
  refine ⟨List.mem_of_mem_filter h, ?_⟩
  have := List.of_mem_filter h
  simp only [Bool.and_eq_true] at this
  exact this.2

/-- Every entry produced by the type-hint helper is the key's
`@TypeHint` companion. -/
theorem typeHintEntries_key {props2 : List (String × JValue)} {i t : String}
    {e : String × String} (h : e ∈ typeHintEntries props2 i t) :
    e.1 = i ++ "@TypeHint" := by
  rw [typeHintEntries] at h
  rcases hlk : lookupF props2 (":" ++ i) with _ | hv <;> rw [hlk] at h <;>
    (repeat' split at h) <;> simp_all

/-- Shape of the form entries contributed by one desired key: only
non-metadata keys contribute, and every entry is the bare name, its
`@Patch` marker, or its `@TypeHint` companion. -/
theorem entriesForKey_entry {cur1 props2 : List (String × JValue)} {kv : String × JValue}
    {r : List (String × String) × List (String × JValue)}
    (h : entriesForKey cur1 props2 kv = .ok r) :
    ∀ e ∈ r.1, keyIsMeta kv.1 = false ∧
      (e.1 = kv.1 ∨ e.1 = kv.1 ++ "@Patch" ∨ e.1 = kv.1 ++ "@TypeHint") := by
  intro e he
  rw [entriesForKey] at h
  split at h
  · cases h
    simp at he
  · rename_i hm
    refine ⟨by simpa using hm, ?_⟩
    split at h
    · rename_i xs hxs
      split at h
      · cases h; simp at he
      · split at h
        · split at h
          · cases h
            rcases List.mem_cons.mp he with hx | hx
            · right; left; rw [hx]
            · rcases List.mem_append.mp hx with hx2 | hx2
              · left
                obtain ⟨c, _, hc⟩ := List.mem_map.mp hx2
                rw [← hc]
              · right; right; exact typeHintEntries_key hx2
          · simp at h
        · cases h
          rcases List.mem_append.mp he with hx | hx
          · left
            obtain ⟨c, _, hc⟩ := List.mem_map.mp hx
            rw [← hc]
          · right; right; exact typeHintEntries_key hx
    · split at h
      · cases h
        right; right; exact typeHintEntries_key he
      · split at h
        · cases h; simp at he
        · cases h
          rcases List.mem_cons.mp he with hx | hx
          · left; rw [hx]
          · right; right; exact typeHintEntries_key hx

/-- Bind of a successful `Except` computation. -/
theorem except_bind_ok {ε α β : Type} (a : α) (f : α → Except ε β) :
    (Except.ok a >>= f) = f a := rfl

/-- Bind of a failed `Except` computation. -/
theorem except_bind_error {ε α β : Type} (e : ε) (f : α → Except ε β) :
    ((Except.error e : Except ε α) >>= f) = Except.error e := rfl

/-- A key's contribution to `childProps` is at most the key-value pair
itself. -/
theorem entriesForKey_child {cur1 props2 : List (String × JValue)} {kv : String × JValue}
    {r : List (String × String) × List (String × JValue)}
    (h : entriesForKey cur1 props2 kv = .ok r) : ∀ x ∈ r.2, x = kv := by
  intro x hx
  rw [entriesForKey] at h
  (repeat' split at h) <;> (cases h) <;> simp_all

/-- Origin of the body entries: every entry of the second loop belongs
to some non-metadata key of the iterated list. -/
theorem buildBodyGo_entry {cur1 props2 : List (String × JValue)} :
    ∀ {l : List (String × JValue)} {bc}, buildBodyGo cur1 props2 l = .ok bc →
    ∀ e ∈ bc.1, ∃ kv ∈ l, keyIsMeta kv.1 = false ∧
      (e.1 = kv.1 ∨ e.1 = kv.1 ++ "@Patch" ∨ e.1 = kv.1 ++ "@TypeHint") := by
  intro l
  induction l with
  | nil =>
    intro bc h e he
    cases h
    simp at he
  | cons kv rest ih =>
    intro bc h e he
    rw [buildBodyGo] at h
    rcases hr : entriesForKey cur1 props2 kv with er | r <;> rw [hr] at h
    · rw [except_bind_error] at h
      exact absurd h (by simp)
    · rw [except_bind_ok] at h
      rcases hrs : buildBodyGo cur1 props2 rest with er2 | rs <;> rw [hrs] at h
      · rw [except_bind_error] at h
        exact absurd h (by simp)
      · rw [except_bind_ok] at h
        cases h
        rcases List.mem_append.mp he with hx | hx
        · obtain ⟨hm, hsh⟩ := entriesForKey_entry hr e hx
          exact ⟨kv, List.mem_cons_self kv rest, hm, hsh⟩
        · obtain ⟨kv2, hkm, hrest⟩ := ih hrs e hx
          exact ⟨kv2, List.mem_cons_of_mem kv hkm, hrest⟩

/-- Origin of the nested child trees: every `childProps` element is an
element of the iterated list. -/
theorem buildBodyGo_child {cur1 props2 : List (String × JValue)} :
    ∀ {l : List (String × JValue)} {bc}, buildBodyGo cur1 props2 l = .ok bc →
    ∀ x ∈ bc.2, x ∈ l := by
  intro l
  induction l with
  | nil =>
    intro bc h x hx
    cases h
    simp at hx
  | cons kv rest ih =>
    intro bc h x hx
    rw [buildBodyGo] at h
    rcases hr : entriesForKey cur1 props2 kv with er | r <;> rw [hr] at h
    · rw [except_bind_error] at h
      exact absurd h (by simp)
    · rw [except_bind_ok] at h
      rcases hrs : buildBodyGo cur1 props2 rest with er2 | rs <;> rw [hrs] at h
      · rw [except_bind_error] at h
        exact absurd h (by simp)
      · rw [except_bind_ok] at h
        cases h
        rcases List.mem_append.mp hx with hx2 | hx2
        · rw [entriesForKey_child hr x hx2]
          exact List.mem_cons_self kv rest
        · exact List.mem_cons_of_mem kv (ih hrs x hx2)

/-- No body entry belongs to a key absent from the iterated list (with
`@`-free non-metadata names). -/
theorem buildBodyGo_base_ne {cur1 props2 : List (String × JValue)} {k : String}
    {l : List (String × JValue)} {bc} (h : buildBodyGo cur1 props2 l = .ok bc)
    (hAt : ∀ kv ∈ l, keyIsMeta kv.1 = false → '@' ∉ kv.1.data)
    (hk : ∀ kv ∈ l, kv.1 ≠ k) : ∀ e ∈ bc.1, entryKeyBase e.1 ≠ k := by
  intro e he
  obtain ⟨kv, hmem, hnm, hsh⟩ := buildBodyGo_entry h e he
  have hfree : '@' ∉ kv.1.data := hAt kv hmem hnm
  have hne : kv.1 ≠ k := hk kv hmem
  rcases hsh with hx | hx | hx <;> rw [hx]
  · rw [entryKeyBase_atFree hfree]; exact hne
  · rw [(entryKeyBase_append hfree (by decide)).1]; exact hne
  · rw [(entryKeyBase_append hfree (by decide)).1]; exact hne

/-- No body entry carries the `@Delete` control suffix (with `@`-free
non-metadata names). -/
theorem buildBodyGo_no_delete {cur1 props2 : List (String × JValue)}
    {l : List (String × JValue)} {bc} (h : buildBodyGo cur1 props2 l = .ok bc)
    (hAt : ∀ kv ∈ l, keyIsMeta kv.1 = false → '@' ∉ kv.1.data) :
    ∀ e ∈ bc.1, entrySuffix e.1 ≠ "@Delete" := by
  intro e he
  obtain ⟨kv, hmem, hnm, hsh⟩ := buildBodyGo_entry h e he
  have hfree : '@' ∉ kv.1.data := hAt kv hmem hnm
  rcases hsh with hx | hx | hx <;> rw [hx]
  · rw [entrySuffix_atFree hfree]; decide
  · rw [(entryKeyBase_append hfree (by decide)).2]; decide
  · rw [(entryKeyBase_append hfree (by decide)).2]; decide

/-- Map over a successful `Except` computation. -/
theorem except_map_ok {ε α β : Type} (a : α) (f : α → β) :
    (Except.ok a : Except ε α).map f = Except.ok (f a) := rfl

/-- Map over a failed `Except` computation. -/
theorem except_map_error {ε α β : Type} (e : ε) (f : α → β) :
    (Except.error e : Except ε α).map f = Except.error e := rfl

/-- Decomposition of a successful level plan into its ingredients. -/
theorem planLevel_ok {opts : SaveOptions} {cur props : List (String × JValue)}
    {plan : LevelPlan} (h : planLevel opts cur props = .ok plan) :
    ∃ bc, buildBody (scrub (ignoredOf opts) cur)
        (scrub (ignoredOf opts) props ++
          backfills (scrub (ignoredOf opts) cur) (scrub (ignoredOf opts) props)) = .ok bc ∧
      plan.form = deleteEntries opts (scrub (ignoredOf opts) cur)
        (scrub (ignoredOf opts) props) ++ bc.1 ∧
      plan.childProps = bc.2 ∧
      plan.childDeletions = childrenToDelete opts (scrub (ignoredOf opts) cur)
        (scrub (ignoredOf opts) props) := by
  simp only [planLevel] at h
  rcases hbc : buildBody (scrub (ignoredOf opts) cur)
      (scrub (ignoredOf opts) props ++
        backfills (scrub (ignoredOf opts) cur) (scrub (ignoredOf opts) props)) with e | bc <;>
    rw [hbc] at h
  · rw [except_map_error] at h
    exact absurd h (by simp)
  · rw [except_map_ok] at h
    cases h
    exact ⟨bc, rfl, rfl, rfl, rfl⟩

/-- The backfilled key list has `@`-free non-metadata names whenever the
desired tree does. -/
theorem props2_atFree {cur props : List (String × JValue)} {ig : List String}
    (hp : atFree props) :
    ∀ kv ∈ scrub ig props ++ backfills (scrub ig cur) (scrub ig props),
      keyIsMeta kv.1 = false → '@' ∉ kv.1.data := by
  intro kv hkv hnm
  rcases List.mem_append.mp hkv with h | h
  · exact hp kv (List.mem_of_mem_filter h)
  · exact absurd ((backfills_mem h).2) (by simp [hnm])

/-- A plain key absent from the desired tree stays absent from the
backfilled key list. -/
theorem props2_ne {cur props : List (String × JValue)} {ig : List String} {k : String}
    (hk : lookupF props k = none) (hkm : keyIsMeta k = false) :
    ∀ kv ∈ scrub ig props ++ backfills (scrub ig cur) (scrub ig props), kv.1 ≠ k := by
  intro kv hkv
  rcases List.mem_append.mp hkv with h | h
  · exact lookupF_eq_none_iff.mp hk kv (List.mem_of_mem_filter h)
  · have hm := (backfills_mem h).2
    intro he
    rw [he] at hm
    exact absurd hm (by simp [hkm])

/-- With `deleteProps` unset no `@Delete` entries are generated. -/
theorem deleteEntries_false {opts : SaveOptions} (c p : List (String × JValue))
    (h : opts.deleteProps = false) : deleteEntries opts c p = [] := by
  simp [deleteEntries, h]

/-- Any generated `@Delete` entry certifies both gates: `deleteProps`
set and a truthy desired `jcr:primaryType`. -/
theorem deleteEntries_gate {opts : SaveOptions} {c p : List (String × JValue)}
    {e : String × String} (h : e ∈ deleteEntries opts c p) :
    opts.deleteProps = true ∧ jsTruthyOpt (lookupF p PROP.jcrPrimaryType) = true := by
  rw [deleteEntries] at h
  split at h
  · rename_i hcond
    simpa [Bool.and_eq_true] using hcond
  · exact absurd h (List.not_mem_nil e)

/-- A key whose current value is never a child node is never scheduled
for child deletion. -/
theorem childrenToDelete_ne {opts : SaveOptions} {c p : List (String × JValue)} {k : String}
    (hnc : ∀ kv ∈ c, kv.1 = k → isChildNode kv.2 = false) :
    k ∉ childrenToDelete opts c p := by
  intro h
  rw [childrenToDelete] at h
  split at h
  · obtain ⟨kv, hmem, hk⟩ := List.mem_map.mp h
    have hcond := List.of_mem_filter hmem
    simp only [Bool.and_eq_true] at hcond
    have hfalse := hnc kv (List.mem_of_mem_filter hmem) hk
    rw [hfalse] at hcond
    exact Bool.false_ne_true hcond.2
  · exact absurd h (List.not_mem_nil k)

/-- C6: deletion gating.  For a plain property `k` (a `@`-free,
non-metadata JCR name, never a child node in the current data) that the
desired tree omits: when `deleteProps` is unset, no form entry of the
planned level belongs to `k`, no nested child write targets `k`, and
`k` is not scheduled for node deletion — the property is left
untouched; and regardless of options, every `@Delete` entry of the
planned form certifies that `deleteProps` is set *and* that the desired
tree (after ignored-property removal) declares a truthy
`jcr:primaryType`. -/
theorem C6_deletion_gating (opts : SaveOptions) (cur props : List (String × JValue))
    (k : String) (plan : LevelPlan)
    (hplan : planLevel opts cur props = .ok plan)
    (hpAt : atFree props)
    (hkAt : '@' ∉ k.data) (hkMeta : keyIsMeta k = false)
    (hkAbsent : lookupF props k = none)
    (hkPlain : ∀ kv ∈ cur, kv.1 = k → isChildNode kv.2 = false) :
    (opts.deleteProps = false →
      (∀ e ∈ plan.form, entryKeyBase e.1 ≠ k ∧ e.1 ≠ k) ∧
      (∀ x ∈ plan.childProps, x.1 ≠ k) ∧
      k ∉ plan.childDeletions) ∧
    (∀ e ∈ plan.form, entrySuffix e.1 = "@Delete" →
      opts.deleteProps = true ∧
      jsTruthyOpt (lookupF (scrub (ignoredOf opts) props) PROP.jcrPrimaryType) = true) := by
  obtain ⟨bc, hbc, hform, hchild, hdel⟩ := planLevel_ok hplan
  rw [buildBody] at hbc
  constructor
  · intro hdp
    refine ⟨?_, ?_, ?_⟩
    · intro e he
      rw [hform, deleteEntries_false _ _ hdp, List.nil_append] at he
      have hbase := buildBodyGo_base_ne hbc (props2_atFree hpAt)
        (props2_ne hkAbsent hkMeta) e he
      refine ⟨hbase, ?_⟩
      intro hek
      apply hbase
      rw [hek]
      exact entryKeyBase_atFree hkAt
    · intro x hx
      rw [hchild] at hx
      exact props2_ne hkAbsent hkMeta x (buildBodyGo_child hbc x hx)
    · rw [hdel]
      exact childrenToDelete_ne (fun kv hkv hk =>
        hkPlain kv (List.mem_of_mem_filter hkv) hk)
  · intro e he hsuf
    rw [hform] at he
    rcases List.mem_append.mp he with h | h
    · exact deleteEntries_gate h
    · exact absurd hsuf (buildBodyGo_no_delete hbc (props2_atFree hpAt) e h)

/-- C6 exercised on a concrete level: current `{title:"Old"}`, desired
`{jcr:primaryType:"x"}`, default options. -/
theorem C6_deletion_gating_witness :
    (({} : SaveOptions).deleteProps = false →
      (∀ e ∈ (LevelPlan.mk [("jcr:primaryType", "x"), ("jcr:primaryType@TypeHint", "String")]
          [] []).form, entryKeyBase e.1 ≠ "title" ∧ e.1 ≠ "title") ∧
      (∀ x ∈ (LevelPlan.mk [("jcr:primaryType", "x"), ("jcr:primaryType@TypeHint", "String")]
          [] []).childProps, x.1 ≠ "title") ∧
      "title" ∉ (LevelPlan.mk [("jcr:primaryType", "x"), ("jcr:primaryType@TypeHint", "String")]
          [] []).childDeletions) ∧
    (∀ e ∈ (LevelPlan.mk [("jcr:primaryType", "x"), ("jcr:primaryType@TypeHint", "String")]
        [] []).form, entrySuffix e.1 = "@Delete" →
      ({} : SaveOptions).deleteProps = true ∧
      jsTruthyOpt (lookupF (scrub (ignoredOf {}) [("jcr:primaryType", JValue.str "x")])
        PROP.jcrPrimaryType) = true) :=
  C6_deletion_gating {} [("title", JValue.str "Old")] [("jcr:primaryType", JValue.str "x")]
    "title" (LevelPlan.mk [("jcr:primaryType", "x"), ("jcr:primaryType@TypeHint", "String")] [] [])
    rfl (by unfold atFree; decide) (by decide) (by decide) rfl (by decide)

/-- Every `@Delete` entry stems from a current-data key that the
desired tree omits. -/
theorem deleteEntries_mem {opts : SaveOptions} {c p : List (String × JValue)}
    {e : String × String} (h : e ∈ deleteEntries opts c p) :
    ∃ kv ∈ c, e.1 = kv.1 ++ "@Delete" ∧ lookupF p kv.1 = none := by
  rw [deleteEntries] at h
  split at h
  · obtain ⟨kv, hmem, hk⟩ := List.mem_map.mp h
    have hcond := List.of_mem_filter hmem
    simp only [Bool.and_eq_true] at hcond
    exact ⟨kv, List.mem_of_mem_filter hmem, by rw [← hk],
      by simpa using hcond.1.1⟩
  · exact absurd h (List.not_mem_nil e)

/-- With unique keys, filtering an association list down to a looked-up
key leaves exactly its binding. -/
theorem filter_eq_single_of_lookup {fs : List (String × JValue)} {k : String} {v : JValue}
    (hnd : (fs.map Prod.fst).Nodup) (h : lookupF fs k = some v) :
    fs.filter (fun kv => kv.1 = k) = [(k, v)] := by
  induction fs with
  | nil => simp [lookupF] at h
  | cons kv rest ih =>
    rw [List.map_cons, List.nodup_cons] at hnd
    by_cases hkv : kv.1 = k
    · rw [lookupF, List.find?_cons_of_pos _ (by simp [hkv]), Option.map_some'] at h
      have hkv2 : kv = (k, v) := by
        cases kv
        simp only [Prod.mk.injEq]
        exact ⟨hkv, by injection h⟩
      rw [List.filter_cons, if_pos (by simp [hkv])]
      rw [hkv2]
      have hrest : rest.filter (fun kv => decide (kv.1 = k)) = [] :=
        List.filter_eq_nil_iff.mpr (fun x hx => by
          simp only [decide_eq_true_eq]
          intro he
          apply hnd.1
          rw [hkv, ← he]
          exact List.mem_map_of_mem Prod.fst hx)
      rw [hrest]
    · rw [lookupF, List.find?_cons_of_neg _ (by simp [hkv])] at h
      rw [List.filter_cons, if_neg (by simp [hkv])]
      exact ih hnd.2 h

/-- The second loop's output, restricted to the entries of one desired
key whose value is the empty array while the current value is a
non-empty array: exactly the removal patch — the `@Patch` marker
followed by one negated entry per current element — and nothing else. -/
theorem buildBodyGo_filter_patch {cur1 props2 : List (String × JValue)} {k : String}
    {c : JValue} {cs : List JValue}
    (hkAt : '@' ∉ k.data) (hkMeta : keyIsMeta k = false)
    (hcur : lookupF cur1 k = some (.arr (c :: cs)))
    (hhint : lookupF props2 (":" ++ k) = none) :
    ∀ {l : List (String × JValue)} {bc}, buildBodyGo cur1 props2 l = .ok bc →
    (∀ kv ∈ l, keyIsMeta kv.1 = false → '@' ∉ kv.1.data) →
    l.filter (fun kv => kv.1 = k) = [(k, .arr [])] →
    bc.1.filter (fun e => entryKeyBase e.1 = k) =
      (k ++ "@Patch", "true") :: (c :: cs).map (fun x => (k, "-" ++ formatJcrValue x)) := by
  intro l
  induction l with
  | nil =>
    intro bc h hAt hocc
    simp at hocc
  | cons kv rest ih =>
    intro bc h hAt hocc
    rw [buildBodyGo] at h
    rcases hr : entriesForKey cur1 props2 kv with er | r <;> rw [hr] at h
    · rw [except_bind_error] at h
      exact absurd h (by simp)
    rw [except_bind_ok] at h
    rcases hrs : buildBodyGo cur1 props2 rest with er2 | rs <;> rw [hrs] at h
    · rw [except_bind_error] at h
      exact absurd h (by simp)
    rw [except_bind_ok] at h
    cases h
    by_cases hkv : kv.1 = k
    · rw [List.filter_cons, if_pos (by simp [hkv])] at hocc
      injection hocc with h1 h2
      subst h1
      have hee : entriesForKey cur1 props2 (k, JValue.arr []) =
          .ok ((k ++ "@Patch", "true") ::
            (c :: cs).map (fun x => (k, "-" ++ formatJcrValue x)), []) := by
        simp [entriesForKey, hkMeta, hcur, arrayEqCheck, jsLength, lenTruthy,
          typeHintEntries, hhint, getJcrValueType]
      rw [hr] at hee
      injection hee with hrv
      subst hrv
      simp only [List.filter_append]
      have hfself : ((k ++ "@Patch", ("true" : String)) ::
          (c :: cs).map (fun x => (k, "-" ++ formatJcrValue x))).filter
            (fun e => decide (entryKeyBase e.1 = k)) =
          (k ++ "@Patch", "true") :: (c :: cs).map (fun x => (k, "-" ++ formatJcrValue x)) :=
        List.filter_eq_self.mpr (fun e he => by
          rcases List.mem_cons.mp he with he1 | he1
          · rw [he1]
            have hb := (entryKeyBase_append (b := "@Patch") hkAt (by decide)).1
            simp [hb]
          · obtain ⟨x, _, hx⟩ := List.mem_map.mp he1
            rw [← hx]
            simp [entryKeyBase_atFree hkAt])
      have hfnil : rs.1.filter (fun e => decide (entryKeyBase e.1 = k)) = [] :=
        List.filter_eq_nil_iff.mpr (fun e he => by
          have := buildBodyGo_base_ne hrs
            (fun kv' h' => hAt kv' (List.mem_cons_of_mem _ h'))
            (fun kv' h' => by
              have := List.filter_eq_nil_iff.mp h2 kv' h'
              simpa using this) e he
          simpa using this)
      rw [hfself, hfnil, List.append_nil]
    · rw [List.filter_cons, if_neg (by simp [hkv])] at hocc
      simp only [List.filter_append]
      have h1 : r.1.filter (fun e => decide (entryKeyBase e.1 = k)) = [] :=
        List.filter_eq_nil_iff.mpr (fun e he => by
          obtain ⟨hm, hsh⟩ := entriesForKey_entry hr e he
          have hfree : '@' ∉ kv.1.data := hAt kv (List.mem_cons_self kv rest) hm
          have hbase : entryKeyBase e.1 = kv.1 := by
            rcases hsh with hx | hx | hx <;> rw [hx]
            · exact entryKeyBase_atFree hfree
            · exact (entryKeyBase_append hfree (by decide)).1
            · exact (entryKeyBase_append hfree (by decide)).1
          simp [hbase, hkv])
      rw [h1, List.nil_append]
      exact ih hrs (fun kv' h' => hAt kv' (List.mem_cons_of_mem _ h')) hocc

/-- C5: empty-array removal patch.  For a plain property `k` whose
desired value is the empty array while its current remote value is the
non-empty array `c :: cs` (with no explicit type hint for `k` in either
tree, unique desired keys, `@`-free JCR names), the planned form,
restricted to the entries belonging to `k`, is exactly the removal
patch: `k@Patch=true` followed by one negated entry `k=-{element}` per
current element — no full-array replacement and no other `k` entries. -/
theorem C5_empty_array_patch (opts : SaveOptions) (cur props : List (String × JValue))
    (k : String) (c : JValue) (cs : List JValue) (plan : LevelPlan)
    (hplan : planLevel opts cur props = .ok plan)
    (hpAt : atFree props) (hcAt : atFree cur)
    (hnd : (props.map Prod.fst).Nodup)
    (hkMeta : keyIsMeta k = false)
    (hdesired : lookupF (scrub (ignoredOf opts) props) k = some (.arr []))
    (hcur : lookupF (scrub (ignoredOf opts) cur) k = some (.arr (c :: cs)))
    (hhintP : lookupF props (":" ++ k) = none)
    (hhintC : lookupF cur (":" ++ k) = none) :
    plan.form.filter (fun e => entryKeyBase e.1 = k) =
      (k ++ "@Patch", "true") :: (c :: cs).map (fun x => (k, "-" ++ formatJcrValue x)) := by
  obtain ⟨bc, hbc, hform, _, _⟩ := planLevel_ok hplan
  rw [buildBody] at hbc
  have hkAt : '@' ∉ k.data :=
    hpAt (k, .arr []) (List.mem_of_mem_filter (lookupF_mem hdesired))
  have hhint2 : lookupF (scrub (ignoredOf opts) props ++
      backfills (scrub (ignoredOf opts) cur) (scrub (ignoredOf opts) props)) (":" ++ k) = none := by
    refine lookupF_append_none (lookupF_filter_none _ hhintP) ?_
    rw [backfills]
    exact lookupF_filter_none _ (lookupF_filter_none _ hhintC)
  have hocc : (scrub (ignoredOf opts) props ++
      backfills (scrub (ignoredOf opts) cur) (scrub (ignoredOf opts) props)).filter
        (fun kv => kv.1 = k) = [(k, .arr [])] := by
    rw [List.filter_append]
    have hnd1 : ((scrub (ignoredOf opts) props).map Prod.fst).Nodup :=
      hnd.sublist (List.Sublist.map Prod.fst (List.filter_sublist props))
    have h1 := filter_eq_single_of_lookup hnd1 hdesired
    have h2 : (backfills (scrub (ignoredOf opts) cur) (scrub (ignoredOf opts) props)).filter
        (fun kv => decide (kv.1 = k)) = [] :=
      List.filter_eq_nil_iff.mpr (fun kv hkv => by
        simp only [decide_eq_true_eq]
        intro he
        have hm := (backfills_mem hkv).2
        rw [he] at hm
        exact absurd hm (by simp [hkMeta]))
    rw [h1, h2, List.append_nil]
  have hmain := buildBodyGo_filter_patch hkAt hkMeta hcur hhint2 hbc
    (props2_atFree hpAt) hocc
  have hdel : (deleteEntries opts (scrub (ignoredOf opts) cur)
      (scrub (ignoredOf opts) props)).filter (fun e => decide (entryKeyBase e.1 = k)) = [] :=
    List.filter_eq_nil_iff.mpr (fun e he => by
      obtain ⟨kv, hkv, hek, hnone⟩ := deleteEntries_mem he
      have hfree : '@' ∉ kv.1.data := hcAt kv (List.mem_of_mem_filter hkv)
      have hbase : entryKeyBase e.1 = kv.1 := by
        rw [hek]
        exact (entryKeyBase_append hfree (by decide)).1
      have hne : kv.1 ≠ k := by
        intro he2
        rw [he2, hdesired] at hnone
        exact absurd hnone (by simp)
      simp [hbase, hne])
  rw [hform, List.filter_append, hdel, List.nil_append]
  exact hmain

/-- C5 exercised on the spec's own example: current `{tags:["a","b"]}`,
desired `{tags:[]}` → `tags@Patch=true`, `tags=-a`, `tags=-b`. -/
theorem C5_empty_array_patch_witness :
    (LevelPlan.mk [("tags@Patch", "true"), ("tags", "-a"), ("tags", "-b")] [] []).form.filter
        (fun e => entryKeyBase e.1 = "tags") =
      ("tags" ++ "@Patch", "true") ::
        ([JValue.str "a", JValue.str "b"].map (fun x => ("tags", "-" ++ formatJcrValue x))) :=
  C5_empty_array_patch {} [("tags", JValue.arr [.str "a", .str "b"])] [("tags", JValue.arr [])]
    "tags" (.str "a") [.str "b"]
    (LevelPlan.mk [("tags@Patch", "true"), ("tags", "-a"), ("tags", "-b")] [] [])
    rfl (by unfold atFree; decide) (by unfold atFree; decide) (by decide) (by decide)
    rfl rfl rfl rfl

/-- Size of a cons cell of a field list. -/
theorem jsizeFields_cons (kv : String × JValue) (fs : List (String × JValue)) :
    jsizeFields (kv :: fs) = jsize kv.2 + jsizeFields fs := by
  cases kv
  rfl

/-- Every value has positive size. -/
theorem jsize_pos (v : JValue) : 1 ≤ jsize v := by
  cases v <;> simp [jsize]

/-- The fields of a value are smaller than the value. -/
theorem jsizeFields_jfieldsOf (v : JValue) : jsizeFields (jfieldsOf v) + 1 ≤ jsize v := by
  cases v <;> simp [jfieldsOf, jsizeFields, jsize] <;> omega

/-- Field-list size is monotone along sublists. -/
theorem jsizeFields_sublist {l1 l2 : List (String × JValue)} (h : l1.Sublist l2) :
    jsizeFields l1 ≤ jsizeFields l2 := by
  induction h with
  | slnil => exact Nat.le_refl _
  | cons kv h ih =>
    rw [jsizeFields_cons]
    omega
  | cons₂ kv h ih =>
    rw [jsizeFields_cons, jsizeFields_cons]
    omega

/-- Composition of tree navigation along concatenated paths. -/
theorem nodeAt_append (p q : List String) (v : JValue) :
    nodeAt v (p ++ q) = match nodeAt v p with
      | some w => nodeAt w q
      | none => none := by
  induction p generalizing v with
  | nil => simp [nodeAt]
  | cons k rest ih =>
    cases v
    case obj fs =>
      rw [List.cons_append]
      rw [nodeAt]
      rw [nodeAt]
      rcases h : lookupF fs k with _ | w
      · rfl
      · exact ih w
    all_goals rfl

/-- A missing node has no descendants. -/
theorem nodeAt_append_none {root : JValue} {p : List String}
    (h : nodeAt root p = none) (q : List String) : nodeAt root (p ++ q) = none := by
  rw [nodeAt_append, h]

/-- Against an empty current level the per-key step never throws. -/
theorem entriesForKey_nil_ok (props2 : List (String × JValue)) (kv : String × JValue) :
    ∃ r, entriesForKey [] props2 kv = .ok r := by
  have hlk : lookupF ([] : List (String × JValue)) kv.1 = none := rfl
  rw [entriesForKey, hlk]
  split
  · exact ⟨_, rfl⟩
  · split
    · rename_i x xs heq
      have h1 : arrayEqCheck xs none = false := rfl
      have h2 : lenTruthy (none : Option JValue) = false := rfl
      rw [h1, h2, Bool.and_false, if_neg (by simp), if_neg (by simp)]
      exact ⟨_, rfl⟩
    · split
      · exact ⟨_, rfl⟩
      · split <;> exact ⟨_, rfl⟩

/-- Against an empty current level the whole second loop succeeds. -/
theorem buildBodyGo_nil_ok (props2 : List (String × JValue)) :
    ∀ l, ∃ bc, buildBodyGo ([] : List (String × JValue)) props2 l = .ok bc := by
  intro l
  induction l with
  | nil => exact ⟨_, rfl⟩
  | cons kv rest ih =>
    obtain ⟨r, hr⟩ := entriesForKey_nil_ok props2 kv
    obtain ⟨rs, hrs⟩ := ih
    refine ⟨(r.1 ++ rs.1, r.2 ++ rs.2), ?_⟩
    rw [buildBodyGo, hr, except_bind_ok, hrs, except_bind_ok]
    rfl

/-- The nested child trees are a sublist of the iterated key list. -/
theorem buildBodyGo_child_sublist {cur1 props2 : List (String × JValue)} :
    ∀ {l : List (String × JValue)} {bc}, buildBodyGo cur1 props2 l = .ok bc →
    bc.2.Sublist l := by
  intro l
  induction l with
  | nil =>
    intro bc h
    cases h
    exact List.nil_sublist _
  | cons kv rest ih =>
    intro bc h
    rw [buildBodyGo] at h
    rcases hr : entriesForKey cur1 props2 kv with er | r <;> rw [hr] at h
    · rw [except_bind_error] at h
      exact absurd h (by simp)
    rw [except_bind_ok] at h
    rcases hrs : buildBodyGo cur1 props2 rest with er2 | rs <;> rw [hrs] at h
    · rw [except_bind_error] at h
      exact absurd h (by simp)
    rw [except_bind_ok] at h
    cases h
    show (r.2 ++ rs.2).Sublist (kv :: rest)
    have hsub := ih hrs
    rw [entriesForKey] at hr
    have hr2 : r.2 = [] ∨ r.2 = [kv] := by
      (repeat' split at hr) <;> (cases hr) <;> simp
    rcases hr2 with h2 | h2 <;> rw [h2]
    · rw [List.nil_append]
      exact hsub.cons kv
    · rw [List.singleton_append]
      exact hsub.cons₂ kv

/-- Planning a level against an empty current tree always succeeds,
nests only desired children, and deletes nothing. -/
theorem planLevel_nil_ok (opts : SaveOptions) (props : List (String × JValue)) :
    ∃ plan, planLevel opts ([] : List (String × JValue)) props = .ok plan ∧
      plan.childProps.Sublist (scrub (ignoredOf opts) props) ∧
      plan.childDeletions = [] := by
  have hscur : scrub (ignoredOf opts) ([] : List (String × JValue)) = [] := rfl
  have hbf : backfills ([] : List (String × JValue)) (scrub (ignoredOf opts) props) = [] := rfl
  obtain ⟨bc, hbc⟩ := buildBodyGo_nil_ok
    (scrub (ignoredOf opts) props ++ [])
    (scrub (ignoredOf opts) props ++ [])
  refine ⟨⟨deleteEntries opts [] (scrub (ignoredOf opts) props) ++ bc.1, bc.2,
    childrenToDelete opts [] (scrub (ignoredOf opts) props)⟩, ?_, ?_, ?_⟩
  · simp only [planLevel, hscur, hbf, buildBody, hbc, except_map_ok]
  · have hsub := buildBodyGo_child_sublist hbc
    exact hsub.trans (by rw [List.append_nil])
  · show childrenToDelete opts [] (scrub (ignoredOf opts) props) = []
    rw [childrenToDelete]
    split <;> rfl

/-- Reconciling onto a missing node (404 at every level) always
proceeds without error. -/
theorem processNodeF_missing_ok (root : JValue) (opts : SaveOptions) :
    ∀ fuel,
      (∀ path props order, nodeAt root path = none →
        2 * jsizeFields props + 2 ≤ fuel →
        ∃ r, processNodeF (serverOf root) opts fuel path props order = .ok r) ∧
      (∀ path l reorder idx, nodeAt root path = none →
        2 * jsizeFields l + 1 ≤ fuel →
        ∃ r, processChildrenF (serverOf root) opts fuel path reorder idx l = .ok r) := by
  intro fuel
  induction fuel with
  | zero =>
    constructor
    · intro path props order _ hf
      omega
    · intro path l reorder idx _ hf
      omega
  | succ f ih =>
    constructor
    · intro path props order hpath hf
      have hfetch : fetchJcrNode (serverOf root) path FetchMode.Normal (-1) =
          .error (.fetchError 404) := by
        simp [fetchJcrNode, serverOf, hpath, except_map_error, FetchMode.Normal,
          FETCH_RECURSIVE, FETCH_FILTER_CHILDREN]
      obtain ⟨plan, hplan, hsub, hdel⟩ := planLevel_nil_ok opts props
      have hscrub : (scrub (ignoredOf opts) props).Sublist props := List.filter_sublist props
      have hsz : jsizeFields plan.childProps ≤ jsizeFields props :=
        le_trans (jsizeFields_sublist hsub) (jsizeFields_sublist hscrub)
      have hle : 2 * jsizeFields plan.childProps + 1 ≤ f := by omega
      rw [processNodeF.eq_def]
      simp only [hfetch, except_bind_ok, hplan, if_true, hdel, List.foldlM_nil, pure_bind]
      obtain ⟨rc, hrc⟩ := ih.2 path plan.childProps
        ((List.filter (fun v => (lookupF plan.childProps v).isSome)
          (List.map Prod.fst (scrub (ignoredOf opts) []))).enum.any
            fun p => decide ((List.map Prod.fst plan.childProps).get? p.1 ≠ some p.2))
        0 hpath hle
      split
      · rw [hrc, except_bind_ok]
        exact ⟨_, rfl⟩
      · have hpost : ∀ p fo, (serverOf root).post p fo = .ok [pathString p] :=
          fun _ _ => rfl
        rw [hpost, except_map_ok, except_bind_ok, hrc, except_bind_ok]
        exact ⟨_, rfl⟩
    · intro path l reorder idx hpath hf
      cases l with
      | nil => exact ⟨([], []), rfl⟩
      | cons kv rest =>
        have hsz := jsizeFields_cons kv rest
        have hjf := jsizeFields_jfieldsOf kv.2
        have hpos := jsize_pos kv.2
        obtain ⟨r1, hr1⟩ := ih.1 (path ++ [kv.1]) (jfieldsOf kv.2)
          (if reorder then some idx else none)
          (nodeAt_append_none hpath [kv.1]) (by omega)
        obtain ⟨r2, hr2⟩ := ih.2 path rest reorder (idx + 1) hpath (by omega)
        rw [processChildrenF.eq_def]
        simp only [hr1, except_bind_ok, hr2]
        exact ⟨_, rfl⟩

/-- A non-404 failure of the current-state fetch aborts `processNode`
with that very error. -/
theorem processNodeF_fetch_error {tr : Transport} {opts : SaveOptions} {f : Nat}
    {path : List String} {props : List (String × JValue)} {order : Option Nat} {e : TErr}
    (hf : fetchJcrNode tr path FetchMode.Normal (-1) = .error e)
    (hs : e ≠ .fetchError 404) :
    processNodeF tr opts (f + 1) path props order = .error e := by
  rw [processNodeF.eq_def]
  simp only [hf]
  cases e with
  | fetchError s =>
    have hs404 : s ≠ 404 := fun h => hs (by rw [h])
    split
    · rename_i heq
      exact absurd heq (by simp)
    · rename_i s2 heq
      injection heq with h1
      injection h1 with h2
      subst h2
      rw [if_neg hs404, except_bind_error]
    · rename_i e0 g heq
      injection heq with h1
      subst h1
      exact (g s rfl).elim
  | error m =>
    split
    · rename_i heq
      exact absurd heq (by simp)
    · rename_i s2 heq
      exact absurd heq (by simp)
    · rename_i e0 g heq
      injection heq with h1
      subst h1
      rw [except_bind_error]

/-- A non-404 fetch failure surfaces from `saveJcrProperties` wrapped
in the operation error. -/
theorem saveJcrProperties_fetch_error (tr : Transport) (path : List String)
    (props : List (String × JValue)) (opts : SaveOptions) {e : TErr}
    (hf : fetchJcrNode tr path FetchMode.Normal (-1) = .error e)
    (hs : e ≠ .fetchError 404) :
    saveJcrProperties tr path props opts =
      .error ("Unable to update " ++ pathString path ++ ": " ++ e.message) := by
  rw [saveJcrProperties]
  have h2 : 2 * jsizeFields props + 2 = 2 * jsizeFields props + 1 + 1 := rfl
  rw [h2, processNodeF_fetch_error hf hs]

/-- C7: failure behaviour of the writer.  A 404 from the
fetch-current-state step means "node does not exist yet": the current
tree is empty and reconciliation proceeds without error (shown against
the canonical transport, where the whole call succeeds); any other
fetch failure aborts the call, surfaced as an operation error whose
message wraps the underlying human-readable message — `Server returned
{status}` for an HTTP failure, the thrown message otherwise. -/
theorem C7_failure_behaviour (tr : Transport) (root : JValue) (path : List String)
    (props : List (String × JValue)) (opts : SaveOptions) :
    (nodeAt root path = none →
      ∃ r, saveJcrProperties (serverOf root) path props opts = .ok r) ∧
    (∀ s, s ≠ 404 →
      fetchJcrNode tr path FetchMode.Normal (-1) = .error (.fetchError s) →
      saveJcrProperties tr path props opts =
        .error ("Unable to update " ++ pathString path ++ ": " ++
          ("Server returned " ++ Nat.repr s))) ∧
    (∀ m, fetchJcrNode tr path FetchMode.Normal (-1) = .error (.error m) →
      saveJcrProperties tr path props opts =
        .error ("Unable to update " ++ pathString path ++ ": " ++ m)) := by
  refine ⟨?_, ?_, ?_⟩
  · intro hpath
    obtain ⟨r, hr⟩ := (processNodeF_missing_ok root opts (2 * jsizeFields props + 2)).1
      path props none hpath (Nat.le_refl _)
    refine ⟨r, ?_⟩
    rw [saveJcrProperties, hr]
  · intro s hs hf
    exact saveJcrProperties_fetch_error tr path props opts hf
      (fun h => hs (by simpa using h))
  · intro m hf
    exact saveJcrProperties_fetch_error tr path props opts hf (fun h => by simp at h)

/-- C7 exercised concretely: saving `{title:"t"}` at `content/x` —
against an empty repository root (404: the node is created), against a
server answering 500, and against a transport throwing `boom`. -/
theorem C7_failure_behaviour_witness :
    (∃ r, saveJcrProperties (serverOf (.obj [])) ["content", "x"]
      [("title", JValue.str "t")] {} = .ok r) ∧
    (saveJcrProperties
        { fetchJSON := fun _ _ => .error (.fetchError 500),
          post := fun p _ => .ok [pathString p] }
        ["content", "x"] [("title", JValue.str "t")] {} =
      .error ("Unable to update " ++ pathString ["content", "x"] ++ ": " ++
        ("Server returned " ++ Nat.repr 500))) ∧
    (saveJcrProperties
        { fetchJSON := fun _ _ => .error (.error "boom"),
          post := fun p _ => .ok [pathString p] }
        ["content", "x"] [("title", JValue.str "t")] {} =
      .error ("Unable to update " ++ pathString ["content", "x"] ++ ": " ++ "boom")) :=
  ⟨(C7_failure_behaviour
      { fetchJSON := fun _ _ => .error (.fetchError 500),
        post := fun p _ => .ok [pathString p] }
      (.obj []) ["content", "x"] [("title", JValue.str "t")] {}).1 rfl,
    (C7_failure_behaviour
      { fetchJSON := fun _ _ => .error (.fetchError 500),
        post := fun p _ => .ok [pathString p] }
      (.obj []) ["content", "x"] [("title", JValue.str "t")] {}).2.1 500 (by decide) rfl,
    (C7_failure_behaviour
      { fetchJSON := fun _ _ => .error (.error "boom"),
        post := fun p _ => .ok [pathString p] }
      (.obj []) ["content", "x"] [("title", JValue.str "t")] {}).2.2 "boom" rfl⟩

/-- C4 (amended): child-write ordering.  With desired children `[b, a]`
whose current remote order is `[a, b]`, the writer recurses into the
nested children strictly sequentially in *desired* order — the write
for `b` first, then the write for `a` — each carrying a positional
`:order` directive (`0` for `b`, `1` for `a`). -/
theorem C4_child_write_order_amended :
    saveJcrProperties (serverOf (.obj [("p", .obj [("a", .obj []), ("b", .obj [])])]))
      ["p"] [("b", JValue.obj []), ("a", JValue.obj [])] {} =
      .ok ([Event.post ["p", "b"] [(":order", "0")],
            Event.post ["p", "a"] [(":order", "1")]], ["p/b", "p/a"]) := rfl

/-- C4 counterexample to the claimed `a`-then-`b` order: on desired
children `[b, a]` with current order `[a, b]` the issued trace starts
with the write for `b`, so no decomposition of it starts with a write
for `a`. -/
theorem C4_child_write_order_counterexample :
    saveJcrProperties (serverOf (.obj [("q", .obj [("a", .obj []), ("b", .obj [])])]))
      ["q"] [("b", JValue.obj []), ("a", JValue.obj [])] {} =
      .ok ([Event.post ["q", "b"] [(":order", "0")],
            Event.post ["q", "a"] [(":order", "1")]], ["q/b", "q/a"]) ∧
    ¬ ∃ f rest, ([Event.post ["q", "b"] [(":order", "0")],
        Event.post ["q", "a"] [(":order", "1")]] : List Event) =
      Event.post ["q", "a"] f :: rest := by
  refine ⟨rfl, ?_⟩
  rintro ⟨f, rest, h⟩
  simp at h

/-- A field's value is no larger than the whole field list. -/
theorem jsize_mem_le {fs : List (String × JValue)} {kv : String × JValue} (h : kv ∈ fs) :
    jsize kv.2 ≤ jsizeFields fs := by
  induction fs with
  | nil => simp at h
  | cons kv0 rest ih =>
    rw [jsizeFields_cons]
    rcases List.mem_cons.mp h with h1 | h1
    · rw [h1]
      omega
    · have := ih h1
      omega

/-- `cleanData` preserves child-node status. -/
theorem isChildNode_cleanDataFuel (f : Nat) (keep recur : Bool) {v : JValue}
    (h : isChildNode v = true) : isChildNode (cleanDataFuel f keep recur v) = true := by
  cases f with
  | zero => exact h
  | succ f => cases v <;> first | rfl | exact h

/-- Values without fields have no descendants carrying fields. -/
theorem nonobj_child_only {v : JValue} (h : jfieldsOf v = []) :
    ∀ p w, nodeAt v p = some w → ∀ kv ∈ jfieldsOf w, isChildNode kv.2 = true := by
  intro p w hw kv hkv
  cases p with
  | nil =>
    rw [nodeAt] at hw
    injection hw with hw1
    rw [← hw1, h] at hkv
    exact absurd hkv (List.not_mem_nil kv)
  | cons k rest =>
    cases v with
    | obj fs =>
      have hfs : fs = [] := h
      rw [nodeAt, hfs] at hw
      exact absurd hw (by simp [lookupF])
    | str s => exact absurd hw (by simp [nodeAt])
    | num m e => exact absurd hw (by simp [nodeAt])
    | bool b => exact absurd hw (by simp [nodeAt])
    | nan => exact absurd hw (by simp [nodeAt])
    | date d => exact absurd hw (by simp [nodeAt])
    | invalidDate => exact absurd hw (by simp [nodeAt])
    | arr xs => exact absurd hw (by simp [nodeAt])

/-- In the recursive child-filtered rendering, every reachable node has
only child-valued fields: scalar properties are dropped at *every*
level. -/
theorem cleanDataFuel_child_only :
    ∀ (f : Nat) (v : JValue), jsize v ≤ f →
      ∀ (p : List String) (w : JValue),
        nodeAt (cleanDataFuel f true true v) p = some w →
        ∀ kv ∈ jfieldsOf w, isChildNode kv.2 = true := by
  intro f
  induction f with
  | zero =>
    intro v hv
    have := jsize_pos v
    omega
  | succ f ih =>
    intro v hv p w hw kv hkv
    cases v with
    | obj fs =>
      rw [cleanDataFuel] at hw
      cases p with
      | nil =>
        rw [nodeAt] at hw
        injection hw with hw1
        rw [← hw1] at hkv
        simp only [jfieldsOf] at hkv
        obtain ⟨kv0, hkv0, hmap⟩ := List.mem_map.mp hkv
        have hchild : isChildNode kv0.2 = true := by
          simpa using (List.of_mem_filter hkv0)
        rw [← hmap]
        simp only [Bool.and_self, if_true]
        exact isChildNode_cleanDataFuel f true true hchild
      | cons k rest =>
        rw [nodeAt] at hw
        rcases hlk : lookupF (List.map
            (fun kv => if (true && true) = true
              then (kv.1, cleanDataFuel f true true kv.2) else kv)
            (List.filter (fun kv => decide (isChildNode kv.2 = true)) fs)) k with _ | w1 <;>
          rw [hlk] at hw
        · exact absurd hw (by simp)
        · have hmem := lookupF_mem hlk
          obtain ⟨kv0, hkv0, hmap⟩ := List.mem_map.mp hmem
          have hchild : isChildNode kv0.2 = true := by
            simpa using (List.of_mem_filter hkv0)
          simp only [Bool.and_self, if_true] at hmap
          have hw1 : w1 = cleanDataFuel f true true kv0.2 := by
            have := congrArg Prod.snd hmap
            simpa using this.symm
          have hsz : jsize kv0.2 ≤ f := by
            have h1 := jsize_mem_le (List.mem_of_mem_filter hkv0)
            have h2 : jsize (JValue.obj fs) = 1 + jsizeFields fs := rfl
            omega
          exact ih kv0.2 hsz rest w (hw1 ▸ hw) kv hkv
    | str s => exact nonobj_child_only (v := .str s) rfl p w hw kv hkv
    | num m e => exact nonobj_child_only (v := .num m e) rfl p w hw kv hkv
    | bool b => exact nonobj_child_only (v := .bool b) rfl p w hw kv hkv
    | nan => exact nonobj_child_only (v := .nan) rfl p w hw kv hkv
    | date d => exact nonobj_child_only (v := .date d) rfl p w hw kv hkv
    | invalidDate => exact nonobj_child_only (v := .invalidDate) rfl p w hw kv hkv
    | arr xs => exact nonobj_child_only (v := .arr xs) rfl p w hw kv hkv

/-- C8 (amended): `FetchMode` filtering.  `Children` mode requests
depth 1 and keeps only the child-valued entries of the response — the
top-level scalars are dropped (not returned), and each immediate child
is passed through as fetched, not blanked; `RecursiveChildren` keeps
only child-valued entries recursively, so every reachable node of the
result carries child-valued fields only: scalar properties are dropped
at every level, not retained below the top. -/
theorem C8_fetchmode_filtering_amended :
    (∀ (tr : Transport) (path : List String) (depth : Int),
      fetchJcrNode tr path FetchMode.Children depth =
        (tr.fetchJSON path 1).map (cleanData true false)) ∧
    (∀ fs : List (String × JValue),
      cleanData true false (.obj fs) =
        .obj (fs.filter (fun kv => isChildNode kv.2 = true))) ∧
    (∀ (tr : Transport) (path : List String) (depth : Int),
      fetchJcrNode tr path FetchMode.RecursiveChildren depth =
        (tr.fetchJSON path depth).map (cleanData true true)) ∧
    (∀ (v : JValue) (p : List String) (w : JValue),
      nodeAt (cleanData true true v) p = some w →
      ∀ kv ∈ jfieldsOf w, isChildNode kv.2 = true) := by
  refine ⟨fun tr path depth => rfl, ?_, fun tr path depth => rfl, ?_⟩
  · intro fs
    rw [cleanData]
    have h1 : jsize (JValue.obj fs) = jsizeFields fs + 1 := by
      rw [jsize]
      omega
    rw [h1, cleanDataFuel]
    simp
  · exact fun v p w => cleanDataFuel_child_only (jsize v) v (Nat.le_refl _) p w

/-- C8 exercised: the deepest conjunct applied to the child `c` of a
two-level tree — its surviving fields are child nodes only. -/
theorem C8_fetchmode_filtering_amended_witness :
    nodeAt (cleanData true true
      (.obj [("c", .obj [("y", JValue.str "z"), ("g", JValue.obj [])])])) ["c"] =
        some (.obj [("g", JValue.obj [])]) ∧
    (∀ kv ∈ jfieldsOf (JValue.obj [("g", JValue.obj [])]), isChildNode kv.2 = true) :=
  ⟨rfl, C8_fetchmode_filtering_amended.2.2.2
    (.obj [("c", .obj [("y", JValue.str "z"), ("g", JValue.obj [])])])
    ["c"] (.obj [("g", JValue.obj [])]) rfl⟩

/-- C8 counterexample to the claimed shapes: on
`{x:"top", c:{y:"z", g:{w:"v"}}}`, `Children` mode drops the top-level
scalar `x` and keeps `c` with its own scalar `y` (not as a blank
placeholder), and `RecursiveChildren` drops the scalars `y` and `w` of
every descendant instead of retaining them. -/
theorem C8_fetchmode_counterexample :
    fetchJcrNode (serverOf (.obj [("x", JValue.str "top"),
        ("c", .obj [("y", JValue.str "z"), ("g", .obj [("w", JValue.str "v")])])]))
      [] FetchMode.Children (-1) =
      .ok (.obj [("c", .obj [("y", JValue.str "z"), ("g", JValue.obj [])])]) ∧
    fetchJcrNode (serverOf (.obj [("x", JValue.str "top"),
        ("c", .obj [("y", JValue.str "z"), ("g", .obj [("w", JValue.str "v")])])]))
      [] FetchMode.RecursiveChildren (-1) =
      .ok (.obj [("c", .obj [("g", JValue.obj [])])]) ∧
    (JValue.obj [("c", JValue.obj [("y", JValue.str "z"), ("g", JValue.obj [])])] ≠
      JValue.obj [("x", JValue.str "top"), ("c", JValue.obj [])]) ∧
    (JValue.obj [("c", JValue.obj [("g", JValue.obj [])])] ≠
      JValue.obj [("c", JValue.obj [("y", JValue.str "z"),
        ("g", JValue.obj [("w", JValue.str "v")])])]) := by
  refine ⟨rfl, rfl, ?_, ?_⟩ <;> (intro h; simp at h)

/-- A scalar JSON leaf: string, boolean or number. -/
def scalarLeaf : JValue → Bool
  | .str _ => true
  | .bool _ => true
  | .num _ _ => true
  | _ => false

mutual

/-- Well-formed JSON node content as rendered by the repository
servlet: scalar leaves, arrays of scalar leaves (JCR multi-values), and
child objects with unique, non-reserved (no leading `:`) names.  `Date`
objects, `NaN` and nested arrays cannot occur in parsed response
JSON. -/
def jsonWfVal : JValue → Bool
  | .obj fs => decide ((fs.map Prod.fst).Nodup) && jsonWfFields fs
  | .arr xs => xs.all scalarLeaf
  | v => scalarLeaf v

/-- Well-formedness of a field list. -/
def jsonWfFields : List (String × JValue) → Bool
  | [] => true
  | kv :: rest => !keyIsMeta kv.1 && jsonWfVal kv.2 && jsonWfFields rest

end

/-- The value a depth-0 server rendering reports for a field: child
nodes appear as opaque placeholders. -/
def phVal (v : JValue) : JValue := if isChildNode v then .obj [] else v

/-- Depth-0 rendering of a field list. -/
def phmap (fs : List (String × JValue)) : List (String × JValue) :=
  fs.map (fun kv => (kv.1, phVal kv.2))

/-- Unique keys make membership and lookup agree. -/
theorem lookupF_mem_nodup {fs : List (String × JValue)} {k : String} {v : JValue}
    (hnd : (fs.map Prod.fst).Nodup) (h : (k, v) ∈ fs) : lookupF fs k = some v := by
  induction fs with
  | nil => exact absurd h (List.not_mem_nil _)
  | cons kv rest ih =>
    rw [List.map_cons, List.nodup_cons] at hnd
    rcases List.mem_cons.mp h with h1 | h1
    · rw [lookupF, List.find?_cons_of_pos _ (by simp [← h1]), Option.map_some']
      rw [← h1]
    · have hne : kv.1 ≠ k := by
        intro he
        exact hnd.1 (he ▸ List.mem_map_of_mem Prod.fst h1)
      rw [lookupF, List.find?_cons_of_neg _ (by simp [hne])]
      exact ih hnd.2 h1

/-- A lookup succeeds exactly on the stored keys. -/
theorem lookupF_isSome_iff {fs : List (String × JValue)} {k : String} :
    (lookupF fs k).isSome = true ↔ k ∈ fs.map Prod.fst := by
  constructor
  · intro h
    rcases hlk : lookupF fs k with _ | v
    · rw [hlk] at h
      simp at h
    · have := lookupF_mem hlk
      exact (List.mem_map_of_mem Prod.fst this : k ∈ fs.map Prod.fst)
  · intro h
    obtain ⟨kv, hkv, hk⟩ := List.mem_map.mp h
    rcases hlk : lookupF fs k with _ | v
    · exact absurd (lookupF_eq_none_iff.mp hlk kv hkv) (by simp [hk])
    · simp

/-- Lookup commutes with a value-only transformation of the list. -/
theorem lookupF_map_val {fs : List (String × JValue)} {k : String}
    (h : JValue → JValue) :
    lookupF (fs.map (fun kv => (kv.1, h kv.2))) k = (lookupF fs k).map h := by
  induction fs with
  | nil => rfl
  | cons kv rest ih =>
    by_cases hk : kv.1 = k
    · rw [List.map_cons, lookupF, List.find?_cons_of_pos _ (by simp [hk]),
        Option.map_some', lookupF, List.find?_cons_of_pos _ (by simp [hk]), Option.map_some']
      rfl
    · rw [List.map_cons, lookupF, List.find?_cons_of_neg _ (by simp [hk]),
        lookupF, List.find?_cons_of_neg _ (by simp [hk])]
      exact ih

/-- Filtering by key commutes with a value-only transformation. -/
theorem filter_key_map_val (fs : List (String × JValue)) (h : JValue → JValue)
    (p : String → Bool) :
    (fs.map (fun kv => (kv.1, h kv.2))).filter (fun kv => p kv.1) =
      (fs.filter (fun kv => p kv.1)).map (fun kv => (kv.1, h kv.2)) := by
  induction fs with
  | nil => rfl
  | cons kv rest ih =>
    rw [List.map_cons, List.filter_cons, List.filter_cons]
    by_cases hp : p kv.1
    · rw [if_pos (by simpa using hp), if_pos (by simpa using hp), List.map_cons, ih]
    · rw [if_neg (by simpa using hp), if_neg (by simpa using hp), ih]

/-- Scrubbing commutes with the placeholder rendering. -/
theorem scrub_phmap (ig : List String) (fs : List (String × JValue)) :
    scrub ig (phmap fs) = phmap (scrub ig fs) := by
  rw [scrub, scrub, phmap, phmap]
  exact filter_key_map_val fs phVal (fun k => !ig.contains k)

/-- The depth-0 rendering of an object node. -/
theorem truncateDepth_zero (fs : List (String × JValue)) :
    truncateDepth 0 (.obj fs) = .obj (phmap fs) := by
  rw [truncateDepth, if_neg (by omega)]
  have h1 : jsize (JValue.obj fs) = jsizeFields fs + 1 := by
    rw [jsize]
    omega
  rw [h1, truncateFuel, phmap]
  congr 1
  apply List.map_congr_left
  intro kv _
  rw [phVal]
  by_cases hc : isChildNode kv.2
  · rw [if_pos hc, if_pos (by omega), if_pos hc]
  · rw [if_neg hc, if_neg hc]

/-- The writer's non-recursive fetch against the canonical transport
renders the node at depth 0. -/
theorem fetchJcrNode_serverOf {root v : JValue} {path : List String}
    (h : nodeAt root path = some v) :
    fetchJcrNode (serverOf root) path FetchMode.Normal (-1) =
      .ok (truncateDepth 0 v) := by
  have hf : (serverOf root).fetchJSON path 0 = .ok (truncateDepth 0 v) := by
    show (match nodeAt root path with
      | some v => Except.ok (truncateDepth 0 v)
      | none => Except.error (TErr.fetchError 404)) = _
    rw [h]
  show ((serverOf root).fetchJSON path 0).map _ = _
  rw [hf, except_map_ok, if_neg (by decide)]

/-- Unpacking well-formedness of an object node. -/
theorem jsonWf_obj {fs : List (String × JValue)} (h : jsonWfVal (.obj fs) = true) :
    (fs.map Prod.fst).Nodup ∧ jsonWfFields fs = true := by
  have h2 : (decide ((fs.map Prod.fst).Nodup) && jsonWfFields fs) = true := h
  simp only [Bool.and_eq_true, decide_eq_true_eq] at h2
  exact h2

/-- Well-formed fields have non-reserved names and well-formed values. -/
theorem jsonWfFields_mem : ∀ {fs : List (String × JValue)}, jsonWfFields fs = true →
    ∀ {kv}, kv ∈ fs → keyIsMeta kv.1 = false ∧ jsonWfVal kv.2 = true := by
  intro fs
  induction fs with
  | nil =>
    intro _ kv h
    exact absurd h (List.not_mem_nil kv)
  | cons kv0 rest ih =>
    intro h kv hm
    have h2 : (!keyIsMeta kv0.1 && jsonWfVal kv0.2 && jsonWfFields rest) = true := h
    simp only [Bool.and_eq_true, Bool.not_eq_true'] at h2
    rcases List.mem_cons.mp hm with h1 | h1
    · rw [h1]
      exact ⟨h2.1.1, h2.1.2⟩
    · exact ih h2.2 h1

/-- No reserved `:`-key exists among plain-named fields. -/
theorem lookupF_meta_none' {fs : List (String × JValue)}
    (h : ∀ kv ∈ fs, keyIsMeta kv.1 = false) (i : String) :
    lookupF fs (":" ++ i) = none := by
  refine lookupF_eq_none_iff.mpr (fun kv hkv he => ?_)
  have hm := h kv hkv
  rw [he] at hm
  have : keyIsMeta (":" ++ i) = true := by
    simp [keyIsMeta, String.data_append]
  rw [this] at hm
  simp at hm

/-- Scalar leaves render as themselves at depth 0. -/
theorem phVal_scalar {v : JValue} (h : scalarLeaf v = true) : phVal v = v := by
  cases v <;> first | rfl | simp [scalarLeaf] at h

/-- Strict equality is reflexive on scalar leaves. -/
theorem jsStrictEq_refl {v : JValue} (h : scalarLeaf v = true) : jsStrictEq v v = true := by
  cases v <;> first | (simp [jsStrictEq]; done) | exact Bool.noConfusion h

/-- Positions listed by `enumFrom` point at their elements. -/
theorem enumFrom_get? {α : Type} :
    ∀ (l : List α) (n i : Nat) (x : α), (i, x) ∈ List.enumFrom n l →
      n ≤ i ∧ l.get? (i - n) = some x := by
  intro l
  induction l with
  | nil =>
    intro n i x h
    simp [List.enumFrom] at h
  | cons a rest ih =>
    intro n i x h
    rw [List.enumFrom] at h
    rcases List.mem_cons.mp h with h1 | h1
    · simp only [Prod.mk.injEq] at h1
      obtain ⟨h2, h3⟩ := h1
      subst h2
      subst h3
      exact ⟨Nat.le_refl _, by rw [Nat.sub_self]; rfl⟩
    · obtain ⟨hle, hg⟩ := ih (n + 1) i x h1
      refine ⟨by omega, ?_⟩
      have hidx : i - n = (i - (n + 1)) + 1 := by omega
      rw [hidx, List.get?_cons_succ]
      exact hg

/-- Positions listed by `enum` point at their elements. -/
theorem enum_get? {α : Type} (l : List α) (i : Nat) (x : α) (h : (i, x) ∈ l.enum) :
    l.get? i = some x := by
  have h2 := enumFrom_get? l 0 i x h
  simpa using h2.2

/-- Every enumerated position agrees with itself: the positional
reorder test on an unchanged sequence is negative. -/
theorem enum_any_get_self {α : Type} [DecidableEq α] (l : List α) :
    l.enum.any (fun p => decide (l.get? p.1 ≠ some p.2)) = false := by
  rw [List.any_eq_false]
  intro p hp
  rw [enum_get? l p.1 p.2 hp]
  simp

/-- The array skip test passes against an identical scalar array. -/
theorem arrayEqCheck_refl {xs : List JValue} (h : xs.all scalarLeaf = true) :
    arrayEqCheck xs (some (.arr xs)) = true := by
  rw [arrayEqCheck]
  refine (Bool.and_eq_true _ _).mpr ⟨by simp [jsLength], ?_⟩
  rw [List.all_eq_true]
  intro p hp
  have hg : xs.get? p.1 = some p.2 := enum_get? xs p.1 p.2 hp
  have hidx : jsIndex (.arr xs) p.1 = some p.2 := by
    rw [jsIndex]
    exact hg
  have hmem : p.2 ∈ xs := List.get?_mem hg
  have hsc : scalarLeaf p.2 = true := List.all_eq_true.mp h p.2 hmem
  simp only [hidx]
  exact jsStrictEq_refl hsc

/-- Joining blocks that are all empty. -/
theorem join_map_nil {α β : Type} (l : List α) (f : α → List β)
    (h : ∀ x ∈ l, f x = []) : (l.map f).flatten = [] := by
  induction l with
  | nil => rfl
  | cons a rest ih =>
    rw [List.map_cons, List.flatten_cons, h a (List.mem_cons_self a rest), List.nil_append]
    exact ih (fun x hx => h x (List.mem_cons_of_mem a hx))

/-- Joining singleton-or-empty blocks is filtering. -/
theorem join_singleton_filter (l : List (String × JValue)) (p : String × JValue → Bool) :
    (l.map (fun kv => if p kv then [kv] else [])).flatten = l.filter p := by
  induction l with
  | nil => rfl
  | cons kv rest ih =>
    rw [List.map_cons, List.flatten_cons, List.filter_cons]
    by_cases hp : p kv
    · rw [if_pos hp, if_pos (by simpa using hp), List.singleton_append, ih]
    · rw [if_neg hp, if_neg (by simpa using hp), List.nil_append, ih]

/-- The second loop over blocks with known per-key results. -/
theorem buildBodyGo_concat {cur1 props2 : List (String × JValue)}
    (E : String × JValue → List (String × String) × List (String × JValue)) :
    ∀ l, (∀ kv ∈ l, entriesForKey cur1 props2 kv = .ok (E kv)) →
    buildBodyGo cur1 props2 l =
      .ok ((l.map (fun kv => (E kv).1)).flatten, (l.map (fun kv => (E kv).2)).flatten) := by
  intro l
  induction l with
  | nil => intro _; rfl
  | cons kv rest ih =>
    intro h
    rw [buildBodyGo, h kv (List.mem_cons_self kv rest), except_bind_ok,
      ih (fun kv2 h2 => h kv2 (List.mem_cons_of_mem kv h2)), except_bind_ok,
      List.map_cons, List.map_cons, List.flatten_cons, List.flatten_cons]
    rfl

/-- Restricting a key sequence to the keys surviving a filter recovers
the filtered key sequence (unique keys). -/
theorem keys_filter_mem {l : List (String × JValue)} (p : String × JValue → Bool)
    (hnd : (l.map Prod.fst).Nodup) :
    (l.map Prod.fst).filter (fun k => decide (k ∈ (l.filter p).map Prod.fst)) =
      (l.filter p).map Prod.fst := by
  induction l with
  | nil => rfl
  | cons kv rest ih =>
    rw [List.map_cons, List.nodup_cons] at hnd
    by_cases hp : p kv = true
    · have hfc : (kv :: rest).filter p = kv :: rest.filter p := by
        rw [List.filter_cons, if_pos hp]
      rw [hfc, List.map_cons, List.map_cons, List.filter_cons]
      rw [if_pos (by simp)]
      congr 1
      have hcongr : ∀ k ∈ rest.map Prod.fst,
          decide (k ∈ kv.1 :: (rest.filter p).map Prod.fst) =
          decide (k ∈ (rest.filter p).map Prod.fst) := by
        intro k hk
        have hne : k ≠ kv.1 := fun he => hnd.1 (he ▸ hk)
        simp [List.mem_cons, hne]
      rw [List.filter_congr hcongr, ih hnd.2]
    · have hfc : (kv :: rest).filter p = rest.filter p := by
        rw [List.filter_cons, if_neg hp]
      rw [hfc, List.map_cons, List.filter_cons]
      have hhead : kv.1 ∉ (rest.filter p).map Prod.fst := by
        intro hmem
        obtain ⟨kv2, hkv2, hk2⟩ := List.mem_map.mp hmem
        exact hnd.1 (hk2 ▸ List.mem_map_of_mem Prod.fst (List.mem_of_mem_filter hkv2))
      rw [if_neg (by simp [hhead])]
      exact ih hnd.2

/-- Per-key second-loop step when the desired value matches the
current rendering: nothing is emitted; child objects are deferred. -/
theorem entriesForKey_noop {cur1 props2 : List (String × JValue)} {kv : String × JValue}
    (hmeta : keyIsMeta kv.1 = false) (hwf : jsonWfVal kv.2 = true)
    (hcur : lookupF cur1 kv.1 = some (phVal kv.2))
    (hhint : lookupF props2 (":" ++ kv.1) = none) :
    entriesForKey cur1 props2 kv =
      .ok ([], if isChildNode kv.2 then [kv] else []) := by
  obtain ⟨k, v⟩ := kv
  simp only at hmeta hwf hcur hhint ⊢
  cases v with
  | str s =>
    have hc2 : lookupF cur1 k = some (.str s) := hcur
    simp [entriesForKey, hmeta, hc2, formatOpt, getJcrValueType, VALUE_TYPE.string,
      isChildNode]
  | bool b =>
    have hc2 : lookupF cur1 k = some (.bool b) := hcur
    simp [entriesForKey, hmeta, hc2, formatOpt, getJcrValueType, VALUE_TYPE.boolean,
      VALUE_TYPE.long, VALUE_TYPE.double, isChildNode]
  | num m e =>
    have hc2 : lookupF cur1 k = some (.num m e) := hcur
    have hty : ¬(if e = 0 then "Long" else "Double") = "" := by split <;> decide
    simp [entriesForKey, hmeta, hc2, formatOpt, getJcrValueType, VALUE_TYPE.long,
      VALUE_TYPE.double, isChildNode, hty]
  | arr xs =>
    have hc2 : lookupF cur1 k = some (.arr xs) := hcur
    have hall : xs.all scalarLeaf = true := hwf
    simp [entriesForKey, hmeta, hc2, arrayEqCheck_refl hall, isChildNode]
  | obj gs =>
    have hc2 : lookupF cur1 k = some (.obj []) := hcur
    simp [entriesForKey, hmeta, hhint, getJcrValueType, typeHintEntries, isChildNode]
  | nan => exact Bool.noConfusion hwf
  | date d => exact Bool.noConfusion hwf
  | invalidDate => exact Bool.noConfusion hwf

/-- Per-key second-loop step at the single differing scalar: exactly
the formatted new value plus its `String` type hint. -/
theorem entriesForKey_diff {cur1 props2 : List (String × JValue)} {k : String}
    {new old : JValue}
    (hmeta : keyIsMeta k = false) (hnew : scalarLeaf new = true)
    (hcur : lookupF cur1 k = some old)
    (hne : formatJcrValue new ≠ formatJcrValue old)
    (hhint : lookupF props2 (":" ++ k) = none) :
    entriesForKey cur1 props2 (k, new) =
      .ok ([(k, formatJcrValue new), (k ++ "@TypeHint", "String")], []) := by
  cases new with
  | str s =>
    simp [entriesForKey, hmeta, hcur, formatOpt, getJcrValueType, VALUE_TYPE.string,
      typeHintEntries, hhint, hne, formatOpt]
  | bool b =>
    simp [entriesForKey, hmeta, hcur, formatOpt, getJcrValueType, VALUE_TYPE.string,
      VALUE_TYPE.boolean, typeHintEntries, hhint, hne]
  | num m e =>
    have hty : ¬(if e = 0 then "Long" else "Double") = "" := by split <;> decide
    simp [entriesForKey, hmeta, hcur, formatOpt, getJcrValueType, VALUE_TYPE.string,
      VALUE_TYPE.long, VALUE_TYPE.double, typeHintEntries, hhint, hne, hty]
  | arr xs => exact Bool.noConfusion hnew
  | obj gs => exact Bool.noConfusion hnew
  | nan => exact Bool.noConfusion hnew
  | date d => exact Bool.noConfusion hnew
  | invalidDate => exact Bool.noConfusion hnew

/-- Placeholder rendering keeps the key sequence. -/
theorem phmap_keys (l : List (String × JValue)) :
    (phmap l).map Prod.fst = l.map Prod.fst := by
  induction l with
  | nil => rfl
  | cons kv rest ih =>
    rw [phmap, List.map_cons, List.map_cons, List.map_cons]
    rw [phmap] at ih
    rw [ih]

/-- Planning a level whose desired tree equals the current node (after
ignored-property removal): empty form, no deletions, and exactly the
child objects deferred. -/
theorem planLevel_noop {opts : SaveOptions} {fs props : List (String × JValue)}
    (hwf : jsonWfVal (.obj fs) = true)
    (hscrub : scrub (ignoredOf opts) props = scrub (ignoredOf opts) fs) :
    planLevel opts (phmap fs) props =
      .ok ⟨[], (scrub (ignoredOf opts) fs).filter (fun kv => isChildNode kv.2), []⟩ := by
  obtain ⟨hnd, hwfF⟩ := jsonWf_obj hwf
  have hndP1 : ((scrub (ignoredOf opts) fs).map Prod.fst).Nodup :=
    hnd.sublist (List.Sublist.map Prod.fst (List.filter_sublist fs))
  have hmemfs : ∀ kv ∈ scrub (ignoredOf opts) fs, kv ∈ fs :=
    fun kv hkv => List.mem_of_mem_filter hkv
  have hnone : ∀ kv ∈ phmap (scrub (ignoredOf opts) fs),
      (lookupF (scrub (ignoredOf opts) fs) kv.1).isNone = false := by
    intro kv hkv
    have hk : kv.1 ∈ (scrub (ignoredOf opts) fs).map Prod.fst := by
      rw [← phmap_keys]
      exact List.mem_map_of_mem Prod.fst hkv
    have hs := lookupF_isSome_iff.mpr hk
    rcases hlk : lookupF (scrub (ignoredOf opts) fs) kv.1 with _ | v
    · rw [hlk] at hs
      exact absurd hs (by simp)
    · rfl
  have hbf : backfills (phmap (scrub (ignoredOf opts) fs)) (scrub (ignoredOf opts) fs) = [] := by
    rw [backfills]
    exact List.filter_eq_nil_iff.mpr (fun kv hkv => by simp [hnone kv hkv])
  have hdel : deleteEntries opts (phmap (scrub (ignoredOf opts) fs))
      (scrub (ignoredOf opts) fs) = [] := by
    rw [deleteEntries]
    split
    · rw [List.filter_eq_nil_iff.mpr (fun kv hkv => by simp [hnone kv hkv])]
      rfl
    · rfl
  have hcd : childrenToDelete opts (phmap (scrub (ignoredOf opts) fs))
      (scrub (ignoredOf opts) fs) = [] := by
    rw [childrenToDelete]
    split
    · rw [List.filter_eq_nil_iff.mpr (fun kv hkv => by simp [hnone kv hkv])]
      rfl
    · rfl
  have hE : ∀ kv ∈ scrub (ignoredOf opts) fs,
      entriesForKey (phmap (scrub (ignoredOf opts) fs)) (scrub (ignoredOf opts) fs) kv =
        .ok (([] : List (String × String)), if isChildNode kv.2 then [kv] else []) := by
    intro kv hkv
    obtain ⟨hmeta, hwfkv⟩ := jsonWfFields_mem hwfF (hmemfs kv hkv)
    refine entriesForKey_noop hmeta hwfkv ?_ ?_
    · rw [phmap, lookupF_map_val phVal, lookupF_mem_nodup hndP1 hkv, Option.map_some']
    · exact lookupF_meta_none' (fun kv2 hkv2 =>
        (jsonWfFields_mem hwfF (hmemfs kv2 hkv2)).1) kv.1
  simp only [planLevel, buildBody]
  rw [hscrub, scrub_phmap, hbf, List.append_nil,
    buildBodyGo_concat (fun kv => (([] : List (String × String)),
      if isChildNode kv.2 then [kv] else [])) (scrub (ignoredOf opts) fs) hE,
    except_map_ok, hdel, hcd, join_map_nil _ _ (fun x _ => rfl), join_singleton_filter,
    List.nil_append]

/-- Unchanged key sequences never trigger the positional reorder test. -/
theorem reorder_eq_false {cur1 l2 : List (String × JValue)} (p : String × JValue → Bool)
    (hkeys : cur1.map Prod.fst = l2.map Prod.fst) (hnd : (l2.map Prod.fst).Nodup) :
    ((cur1.map Prod.fst).filter (fun v => (lookupF (l2.filter p) v).isSome)).enum.any
      (fun pr => decide (((l2.filter p).map Prod.fst).get? pr.1 ≠ some pr.2)) = false := by
  rw [hkeys]
  have hpt : ∀ k ∈ l2.map Prod.fst,
      ((lookupF (l2.filter p) k).isSome) = decide (k ∈ (l2.filter p).map Prod.fst) := by
    intro k hk
    by_cases hm : k ∈ (l2.filter p).map Prod.fst
    · rw [lookupF_isSome_iff.mpr hm]
      simp [hm]
    · rcases hlk : (lookupF (l2.filter p) k) with _ | v
      · simp [hm]
      · exact absurd (lookupF_isSome_iff.mp (by rw [hlk]; rfl)) hm
  rw [List.filter_congr hpt, keys_filter_mem p hnd]
  exact enum_any_get_self _

/-- Reconciling a desired tree identical (after ignored-property
removal) to the stored tree issues no request at any level. -/
theorem processNodeF_noop (root : JValue) (opts : SaveOptions) :
    ∀ fuel,
      (∀ path props fs, nodeAt root path = some (.obj fs) →
        jsonWfVal (.obj fs) = true →
        scrub (ignoredOf opts) props = scrub (ignoredOf opts) fs →
        2 * jsizeFields props + 2 ≤ fuel →
        processNodeF (serverOf root) opts fuel path props none = .ok ([], [])) ∧
      (∀ path l idx,
        (∀ kv ∈ l, ∃ gs, kv.2 = .obj gs ∧ nodeAt root (path ++ [kv.1]) = some (.obj gs) ∧
          jsonWfVal (.obj gs) = true) →
        2 * jsizeFields l + 1 ≤ fuel →
        processChildrenF (serverOf root) opts fuel path false idx l = .ok ([], [])) := by
  intro fuel
  induction fuel with
  | zero =>
    constructor
    · intro path props fs _ _ _ hf
      omega
    · intro path l idx _ hf
      omega
  | succ f ih =>
    constructor
    · intro path props fs hnode hwf hscrub hf
      obtain ⟨hnd, hwfF⟩ := jsonWf_obj hwf
      have hfetch : fetchJcrNode (serverOf root) path FetchMode.Normal (-1) =
          .ok (.obj (phmap fs)) := by
        rw [fetchJcrNode_serverOf hnode, truncateDepth_zero]
      have hplan := planLevel_noop hwf hscrub
      rw [processNodeF.eq_def]
      simp only [hfetch, except_bind_ok, jfieldsOf, hplan, List.foldlM_nil, pure_bind]
      have hro : ((List.filter (fun v =>
            (lookupF ((scrub (ignoredOf opts) fs).filter (fun kv => isChildNode kv.2)) v).isSome)
            ((scrub (ignoredOf opts) (phmap fs)).map Prod.fst)).enum.any
          (fun pr => decide ((((scrub (ignoredOf opts) fs).filter
            (fun kv => isChildNode kv.2)).map Prod.fst).get? pr.1 ≠ some pr.2))) = false := by
        refine reorder_eq_false _ ?_ ?_
        · rw [scrub_phmap, phmap_keys]
        · exact (jsonWf_obj hwf).1.sublist (List.Sublist.map Prod.fst (List.filter_sublist fs))
      rw [hro]
      have hchildren : processChildrenF (serverOf root) opts f path false 0
          ((scrub (ignoredOf opts) fs).filter (fun kv => isChildNode kv.2)) = .ok ([], []) := by
        refine ih.2 path _ 0 ?_ ?_
        · intro kv hkv
          have hmemfs : kv ∈ fs := List.mem_of_mem_filter (List.mem_of_mem_filter hkv)
          obtain ⟨hmeta, hwfkv⟩ := jsonWfFields_mem hwfF hmemfs
          have hchild : isChildNode kv.2 = true := by simpa using List.of_mem_filter hkv
          obtain ⟨gs, hgs⟩ : ∃ gs, kv.2 = JValue.obj gs := by
            cases hv : kv.2 <;> rw [hv] at hchild hwfkv <;>
              first
              | exact ⟨_, rfl⟩
              | exact Bool.noConfusion hchild
              | exact Bool.noConfusion hwfkv
          refine ⟨gs, hgs, ?_, hgs ▸ hwfkv⟩
          have hnav : nodeAt (JValue.obj fs) [kv.1] = some (JValue.obj gs) := by
            rw [nodeAt, lookupF_mem_nodup hnd hmemfs, hgs]
            rfl
          rw [nodeAt_append, hnode]
          show nodeAt (JValue.obj fs) [kv.1] = some (JValue.obj gs)
          rw [hnav]
        · have h1 : jsizeFields ((scrub (ignoredOf opts) fs).filter
              (fun kv => isChildNode kv.2)) ≤ jsizeFields (scrub (ignoredOf opts) fs) :=
            jsizeFields_sublist (List.filter_sublist _)
          have h2 : jsizeFields (scrub (ignoredOf opts) fs) ≤ jsizeFields props := by
            rw [← hscrub]
            exact jsizeFields_sublist (List.filter_sublist _)
          omega
      rw [hchildren, except_bind_ok]
      rfl
    · intro path l idx hl hf
      cases l with
      | nil => rfl
      | cons kv rest =>
        obtain ⟨gs, hgs, hnode2, hwf2⟩ := hl kv (List.mem_cons_self kv rest)
        have hsz := jsizeFields_cons kv rest
        have hjf : jsizeFields (jfieldsOf kv.2) + 1 ≤ jsize kv.2 := jsizeFields_jfieldsOf kv.2
        have hpos := jsize_pos kv.2
        have hr1 : processNodeF (serverOf root) opts f (path ++ [kv.1]) (jfieldsOf kv.2)
            (if false then some idx else none) = .ok ([], []) := by
          refine ih.1 (path ++ [kv.1]) (jfieldsOf kv.2) gs hnode2 hwf2 (by rw [hgs]; rfl) ?_
          omega
        have hr2 : processChildrenF (serverOf root) opts f path false (idx + 1) rest =
            .ok ([], []) :=
          ih.2 path rest (idx + 1) (fun kv2 h2 => hl kv2 (List.mem_cons_of_mem kv h2))
            (by omega)
        rw [processChildrenF.eq_def]
        simp only [hr1, except_bind_ok, hr2]
        rfl

/-- Scalar leaves are not child nodes. -/
theorem scalarLeaf_not_child {v : JValue} (h : scalarLeaf v = true) :
    isChildNode v = false := by
  cases v <;> first | rfl | exact Bool.noConfusion h

/-- Lookup through a key-dependent value rewrite. -/
theorem lookupF_map_kv (g : String × JValue → JValue) :
    ∀ (l : List (String × JValue)) (k0 : String),
    lookupF (l.map (fun kv => (kv.1, g kv))) k0 =
      (l.find? (fun kv => kv.1 = k0)).map (fun kv => g kv) := by
  intro l k0
  induction l with
  | nil => rfl
  | cons kv rest ih =>
    by_cases hk : kv.1 = k0
    · rw [List.map_cons, lookupF, List.find?_cons_of_pos _ (by simp [hk]),
        Option.map_some', List.find?_cons_of_pos _ (by simp [hk]), Option.map_some']
    · rw [List.map_cons, lookupF, List.find?_cons_of_neg _ (by simp [hk]),
        List.find?_cons_of_neg _ (by simp [hk])]
      exact ih

/-- Filtering by key commutes with a key-preserving rewrite. -/
theorem filter_key_map_kv (l : List (String × JValue)) (g : String × JValue → JValue)
    (p : String → Bool) :
    (l.map (fun kv => (kv.1, g kv))).filter (fun kv => p kv.1) =
      (l.filter (fun kv => p kv.1)).map (fun kv => (kv.1, g kv)) := by
  induction l with
  | nil => rfl
  | cons kv rest ih =>
    rw [List.map_cons, List.filter_cons, List.filter_cons]
    by_cases hp : p kv.1
    · rw [if_pos (by simpa using hp), if_pos (by simpa using hp), List.map_cons, ih]
    · rw [if_neg (by simpa using hp), if_neg (by simpa using hp), ih]

/-- Scrubbing commutes with a key-preserving rewrite. -/
theorem scrub_map_kv (ig : List String) (g : String × JValue → JValue)
    (l : List (String × JValue)) :
    scrub ig (l.map (fun kv => (kv.1, g kv))) =
      (scrub ig l).map (fun kv => (kv.1, g kv)) := by
  rw [scrub, scrub]
  exact filter_key_map_kv l g (fun k => !ig.contains k)

/-- A key-preserving rewrite keeps the key sequence. -/
theorem map_kv_keys (g : String × JValue → JValue) (l : List (String × JValue)) :
    (l.map (fun kv => (kv.1, g kv))).map Prod.fst = l.map Prod.fst := by
  induction l with
  | nil => rfl
  | cons kv rest ih =>
    rw [List.map_cons, List.map_cons, List.map_cons, ih]

/-- Flattening per-key blocks that are empty away from one key. -/
theorem flatten_map_single {l : List (String × JValue)} {k : String} {v0 : JValue}
    (F : String × JValue → List (String × String))
    (hnd : (l.map Prod.fst).Nodup) (hlk : lookupF l k = some v0)
    (hn : ∀ kv ∈ l, kv.1 ≠ k → F kv = []) :
    (l.map F).flatten = F (k, v0) := by
  induction l with
  | nil => simp [lookupF] at hlk
  | cons kv rest ih =>
    rw [List.map_cons, List.nodup_cons] at hnd
    rw [List.map_cons, List.flatten_cons]
    by_cases hk : kv.1 = k
    · rw [lookupF, List.find?_cons_of_pos _ (by simp [hk]), Option.map_some'] at hlk
      have hkv : kv = (k, v0) := by
        cases kv
        simp only [Prod.mk.injEq]
        exact ⟨hk, by injection hlk⟩
      have hrest : (rest.map F).flatten = [] := by
        refine join_map_nil rest F (fun kv2 h2 => ?_)
        refine hn kv2 (List.mem_cons_of_mem kv h2) (fun he => ?_)
        apply hnd.1
        rw [hk, ← he]
        exact List.mem_map_of_mem Prod.fst h2
      rw [hrest, List.append_nil, hkv]
    · rw [lookupF, List.find?_cons_of_neg _ (by simp [hk])] at hlk
      rw [hn kv (List.mem_cons_self kv rest) hk, List.nil_append]
      exact ih hnd.2 hlk (fun kv2 h2 hne => hn kv2 (List.mem_cons_of_mem kv h2) hne)

/-- Planning a level whose desired tree rewrites exactly one field of
the current node: the single field's block, the (rewritten) child
objects, and no deletions. -/
theorem planLevel_upd {opts : SaveOptions} {fs props : List (String × JValue)}
    {k0 : String} {w oldv : JValue} {D0 : List (String × String)}
    (hwf : jsonWfVal (.obj fs) = true)
    (holdlk : lookupF (scrub (ignoredOf opts) fs) k0 = some oldv)
    (hprops : scrub (ignoredOf opts) props = (scrub (ignoredOf opts) fs).map
      (fun kv => (kv.1, if kv.1 = k0 then w else kv.2)))
    (hEk : entriesForKey (phmap (scrub (ignoredOf opts) fs))
        ((scrub (ignoredOf opts) fs).map (fun kv => (kv.1, if kv.1 = k0 then w else kv.2)))
        (k0, w) = .ok (D0, if isChildNode w then [(k0, w)] else [])) :
    planLevel opts (phmap fs) props =
      .ok ⟨D0,
        ((scrub (ignoredOf opts) fs).map
          (fun kv => (kv.1, if kv.1 = k0 then w else kv.2))).filter
            (fun kv => isChildNode kv.2), []⟩ := by
  obtain ⟨hnd, hwfF⟩ := jsonWf_obj hwf
  have hndP1 : ((scrub (ignoredOf opts) fs).map Prod.fst).Nodup :=
    hnd.sublist (List.Sublist.map Prod.fst (List.filter_sublist fs))
  have hmemfs : ∀ kv ∈ scrub (ignoredOf opts) fs, kv ∈ fs :=
    fun kv hkv => List.mem_of_mem_filter hkv
  have hMkeys : ((scrub (ignoredOf opts) fs).map
      (fun kv => (kv.1, if kv.1 = k0 then w else kv.2))).map Prod.fst =
      (scrub (ignoredOf opts) fs).map Prod.fst :=
    map_kv_keys _ _
  have hnone : ∀ kv ∈ phmap (scrub (ignoredOf opts) fs),
      (lookupF ((scrub (ignoredOf opts) fs).map
        (fun kv => (kv.1, if kv.1 = k0 then w else kv.2))) kv.1).isNone = false := by
    intro kv hkv
    have hk : kv.1 ∈ ((scrub (ignoredOf opts) fs).map
        (fun kv => (kv.1, if kv.1 = k0 then w else kv.2))).map Prod.fst := by
      rw [hMkeys, ← phmap_keys]
      exact List.mem_map_of_mem Prod.fst hkv
    have hs := lookupF_isSome_iff.mpr hk
    rcases hlk : lookupF ((scrub (ignoredOf opts) fs).map
        (fun kv => (kv.1, if kv.1 = k0 then w else kv.2))) kv.1 with _ | v
    · rw [hlk] at hs
      exact absurd hs (by simp)
    · simp [hlk]
  have hbf : backfills (phmap (scrub (ignoredOf opts) fs))
      ((scrub (ignoredOf opts) fs).map
        (fun kv => (kv.1, if kv.1 = k0 then w else kv.2))) = [] := by
    rw [backfills]
    exact List.filter_eq_nil_iff.mpr (fun kv hkv => by simp [hnone kv hkv])
  have hdel : deleteEntries opts (phmap (scrub (ignoredOf opts) fs))
      ((scrub (ignoredOf opts) fs).map
        (fun kv => (kv.1, if kv.1 = k0 then w else kv.2))) = [] := by
    rw [deleteEntries]
    split
    · rw [List.filter_eq_nil_iff.mpr (fun kv hkv => by simp [hnone kv hkv])]
      rfl
    · rfl
  have hcd : childrenToDelete opts (phmap (scrub (ignoredOf opts) fs))
      ((scrub (ignoredOf opts) fs).map
        (fun kv => (kv.1, if kv.1 = k0 then w else kv.2))) = [] := by
    rw [childrenToDelete]
    split
    · rw [List.filter_eq_nil_iff.mpr (fun kv hkv => by simp [hnone kv hkv])]
      rfl
    · rfl
  have hmetaM : ∀ kv2 ∈ (scrub (ignoredOf opts) fs).map
      (fun kv => (kv.1, if kv.1 = k0 then w else kv.2)), keyIsMeta kv2.1 = false := by
    intro kv2 hkv2
    obtain ⟨kv, hkv, hmap⟩ := List.mem_map.mp hkv2
    rw [← hmap]
    exact (jsonWfFields_mem hwfF (hmemfs kv hkv)).1
  have hE : ∀ e ∈ (scrub (ignoredOf opts) fs).map
      (fun kv => (kv.1, if kv.1 = k0 then w else kv.2)),
      entriesForKey (phmap (scrub (ignoredOf opts) fs))
        ((scrub (ignoredOf opts) fs).map
          (fun kv => (kv.1, if kv.1 = k0 then w else kv.2))) e =
        .ok (if e.1 = k0 then D0 else [], if isChildNode e.2 then [e] else []) := by
    intro e he
    obtain ⟨kv, hkv, hmap⟩ := List.mem_map.mp he
    by_cases hk : kv.1 = k0
    · have he2 : e = (k0, w) := by
        rw [← hmap, hk]
        simp [hk]
      rw [he2]
      rw [hEk]
      simp
    · have he2 : e = (kv.1, kv.2) := by
        rw [← hmap]
        simp [hk]
      obtain ⟨hmeta, hwfkv⟩ := jsonWfFields_mem hwfF (hmemfs kv hkv)
      rw [he2]
      have hnoop : entriesForKey (phmap (scrub (ignoredOf opts) fs))
          ((scrub (ignoredOf opts) fs).map
            (fun kv => (kv.1, if kv.1 = k0 then w else kv.2))) (kv.1, kv.2) =
          .ok ([], if isChildNode kv.2 then [(kv.1, kv.2)] else []) :=
        entriesForKey_noop hmeta hwfkv ?_ ?_
      · rw [hnoop]
        simp [hk]
      · rw [phmap, lookupF_map_val phVal, lookupF_mem_nodup hndP1 hkv, Option.map_some']
      · exact lookupF_meta_none' hmetaM kv.1
  have hlkM : lookupF ((scrub (ignoredOf opts) fs).map
      (fun kv => (kv.1, if kv.1 = k0 then w else kv.2))) k0 = some w := by
    rw [lookupF_map_kv]
    obtain ⟨kv1, hfind, hv⟩ := Option.map_eq_some'.mp holdlk
    have hkey : kv1.1 = k0 := by simpa using List.find?_some hfind
    rw [hfind, Option.map_some', hkey]
    simp
  simp only [planLevel, buildBody]
  rw [hprops, scrub_phmap, hbf, List.append_nil,
    buildBodyGo_concat (fun e => (if e.1 = k0 then D0 else [],
      if isChildNode e.2 then [e] else [])) _ hE,
    except_map_ok, hdel, hcd]
  have hform : (((scrub (ignoredOf opts) fs).map
      (fun kv => (kv.1, if kv.1 = k0 then w else kv.2))).map
        (fun e => if e.1 = k0 then D0 else [])).flatten = D0 := by
    have hfm : (((scrub (ignoredOf opts) fs).map
        (fun kv => (kv.1, if kv.1 = k0 then w else kv.2))).map
          (fun e => if e.1 = k0 then D0 else [])).flatten =
        ((fun e : String × JValue => if e.1 = k0 then D0 else []) (k0, w)) :=
      flatten_map_single (fun e => if e.1 = k0 then D0 else [])
        (by rw [hMkeys]; exact hndP1) hlkM
        (fun kv hkv hne => by simp [hne])
    rw [hfm]
    simp
  rw [hform, join_singleton_filter]
  rfl

/-- "The desired tree differs from the stored tree in exactly one
scalar field": following the spec's wording, the desired field list is
the stored one with the single (non-ignored) field `k`, reached along
the child path, rewritten from its stored scalar to the scalar `new`
with a different rendering.  A hypothesis shape for the diff-minimality
claim, not part of the embedded program. -/
inductive DiffSpec (ig : List String) (k : String) (new : JValue) :
    List (String × JValue) → List String → List (String × JValue) → Prop where
  | here {fs : List (String × JValue)} {old : JValue} :
      lookupF fs k = some old → scalarLeaf old = true →
      formatJcrValue new ≠ formatJcrValue old → ig.contains k = false →
      DiffSpec ig k new fs []
        (fs.map (fun kv => (kv.1, if kv.1 = k then new else kv.2)))
  | deeper {fs gs props' : List (String × JValue)} {j : String} {q : List String} :
      lookupF fs j = some (.obj gs) → ig.contains j = false →
      DiffSpec ig k new gs q props' →
      DiffSpec ig k new fs (j :: q)
        (fs.map (fun kv => (kv.1, if kv.1 = j then .obj props' else kv.2)))

/-- Children surviving the one-field rewrite, other than the rewritten
key itself, are unchanged stored child nodes. -/
theorem upd_children {root : JValue} {path : List String} {fs : List (String × JValue)}
    {ig : List String} {k0 : String} {w : JValue}
    (hnode : nodeAt root path = some (.obj fs)) (hwf : jsonWfVal (.obj fs) = true) :
    ∀ e ∈ ((scrub ig fs).map (fun kv => (kv.1, if kv.1 = k0 then w else kv.2))).filter
      (fun kv => isChildNode kv.2), e.1 ≠ k0 →
      ∃ hs, e.2 = .obj hs ∧ nodeAt root (path ++ [e.1]) = some (.obj hs) ∧
        jsonWfVal (.obj hs) = true := by
  intro e he hne
  obtain ⟨hnd, hwfF⟩ := jsonWf_obj hwf
  have hchild : isChildNode e.2 = true := by simpa using List.of_mem_filter he
  obtain ⟨kv, hkv, hmap⟩ := List.mem_map.mp (List.mem_of_mem_filter he)
  have he1 : e.1 = kv.1 := by rw [← hmap]
  have hkne : kv.1 ≠ k0 := he1 ▸ hne
  have he2 : e = (kv.1, kv.2) := by
    rw [← hmap]
    simp [hkne]
  have hmemfs : kv ∈ fs := List.mem_of_mem_filter hkv
  obtain ⟨hmeta, hwfkv⟩ := jsonWfFields_mem hwfF hmemfs
  rw [he2] at hchild
  simp only at hchild
  obtain ⟨hs, hgs⟩ : ∃ hs, kv.2 = JValue.obj hs := by
    cases hv : kv.2 <;> rw [hv] at hchild hwfkv <;>
      first
      | exact ⟨_, rfl⟩
      | exact Bool.noConfusion hchild
      | exact Bool.noConfusion hwfkv
  refine ⟨hs, by rw [he2]; simpa using hgs, ?_, hgs ▸ hwfkv⟩
  have hnav : nodeAt (JValue.obj fs) [kv.1] = some (JValue.obj hs) := by
    rw [nodeAt, lookupF_mem_nodup hnd hmemfs, hgs]
    rfl
  rw [he1, nodeAt_append, hnode]
  show nodeAt (JValue.obj fs) [kv.1] = some (JValue.obj hs)
  rw [hnav]

/-- With a scalar rewrite the rewritten key never survives the child
filter. -/
theorem upd_filter_ne {fs : List (String × JValue)} {ig : List String} {k0 : String}
    {w : JValue} (hw : isChildNode w = false) :
    ∀ e ∈ ((scrub ig fs).map (fun kv => (kv.1, if kv.1 = k0 then w else kv.2))).filter
      (fun kv => isChildNode kv.2), e.1 ≠ k0 := by
  intro e he heq
  have hchild : isChildNode e.2 = true := by simpa using List.of_mem_filter he
  obtain ⟨kv, hkv, hmap⟩ := List.mem_map.mp (List.mem_of_mem_filter he)
  have he1 : e.1 = kv.1 := by rw [← hmap]
  have hk : kv.1 = k0 := by rw [← he1, heq]
  have he2 : e.2 = w := by
    rw [← hmap]
    simp [hk]
  rw [he2, hw] at hchild
  exact Bool.noConfusion hchild

/-- Reconciling a desired tree that differs from the stored tree in
exactly one scalar field issues exactly one write: a single POST at the
differing node whose form holds the formatted new value and its type
hint, and nothing else. -/
theorem processNodeF_onediff (root : JValue) (opts : SaveOptions) (k : String) (new : JValue)
    (hsc : scalarLeaf new = true) :
    ∀ fuel,
      (∀ path q props fs, nodeAt root path = some (.obj fs) →
        jsonWfVal (.obj fs) = true →
        DiffSpec (ignoredOf opts) k new fs q props →
        2 * jsizeFields props + 2 ≤ fuel →
        processNodeF (serverOf root) opts fuel path props none =
          .ok ([Event.post (path ++ q)
                [(k, formatJcrValue new), (k ++ "@TypeHint", "String")]],
               [pathString (path ++ q)])) ∧
      (∀ path l idx j q' gs props',
        (∀ kv ∈ l, kv.1 ≠ j → ∃ hs, kv.2 = .obj hs ∧
          nodeAt root (path ++ [kv.1]) = some (.obj hs) ∧ jsonWfVal (.obj hs) = true) →
        l.filter (fun kv => kv.1 = j) = [(j, .obj props')] →
        nodeAt root (path ++ [j]) = some (.obj gs) →
        jsonWfVal (.obj gs) = true →
        DiffSpec (ignoredOf opts) k new gs q' props' →
        2 * jsizeFields l + 1 ≤ fuel →
        processChildrenF (serverOf root) opts fuel path false idx l =
          .ok ([Event.post ((path ++ [j]) ++ q')
                [(k, formatJcrValue new), (k ++ "@TypeHint", "String")]],
               [pathString ((path ++ [j]) ++ q')])) := by
  intro fuel
  induction fuel with
  | zero =>
    constructor
    · intro path q props fs _ _ _ hf
      omega
    · intro path l idx j q' gs props' _ _ _ _ _ hf
      omega
  | succ f ih =>
    constructor
    · intro path q props fs hnode hwf hdiff hf
      obtain ⟨hnd, hwfF⟩ := jsonWf_obj hwf
      have hfetch : fetchJcrNode (serverOf root) path FetchMode.Normal (-1) =
          .ok (.obj (phmap fs)) := by
        rw [fetchJcrNode_serverOf hnode, truncateDepth_zero]
      have hndP1 : ((scrub (ignoredOf opts) fs).map Prod.fst).Nodup :=
        hnd.sublist (List.Sublist.map Prod.fst (List.filter_sublist fs))
      have hpost : ∀ p fo, (serverOf root).post p fo = .ok [pathString p] := fun _ _ => rfl
      cases hdiff with
      | here hlk hscal hne hkig =>
        rename_i old
        have hkv_mem : (k, old) ∈ fs := lookupF_mem hlk
        have hmemscrub : (k, old) ∈ scrub (ignoredOf opts) fs :=
          List.mem_filter.mpr ⟨hkv_mem, by simpa using hkig⟩
        have holdlk : lookupF (scrub (ignoredOf opts) fs) k = some old :=
          lookupF_mem_nodup hndP1 hmemscrub
        have hmetaM : ∀ kv2 ∈ (scrub (ignoredOf opts) fs).map
            (fun kv => (kv.1, if kv.1 = k then new else kv.2)), keyIsMeta kv2.1 = false := by
          intro kv2 hkv2
          obtain ⟨kv, hkv, hmap⟩ := List.mem_map.mp hkv2
          rw [← hmap]
          exact (jsonWfFields_mem hwfF (List.mem_of_mem_filter hkv)).1
        have hmetak : keyIsMeta k = false := (jsonWfFields_mem hwfF hkv_mem).1
        have hcurk : lookupF (phmap (scrub (ignoredOf opts) fs)) k = some old := by
          rw [phmap, lookupF_map_val phVal, holdlk, Option.map_some', phVal_scalar hscal]
        have hEk : entriesForKey (phmap (scrub (ignoredOf opts) fs))
            ((scrub (ignoredOf opts) fs).map
              (fun kv => (kv.1, if kv.1 = k then new else kv.2))) (k, new) =
            .ok ([(k, formatJcrValue new), (k ++ "@TypeHint", "String")],
              if isChildNode new then [(k, new)] else []) := by
          rw [entriesForKey_diff hmetak hsc hcurk hne (lookupF_meta_none' hmetaM k)]
          simp [scalarLeaf_not_child hsc]
        have hplan := planLevel_upd hwf holdlk (scrub_map_kv _ _ _) hEk
        have hro : ((List.filter (fun v =>
              (lookupF (((scrub (ignoredOf opts) fs).map
                (fun kv => (kv.1, if kv.1 = k then new else kv.2))).filter
                  (fun kv => isChildNode kv.2)) v).isSome)
              ((scrub (ignoredOf opts) (phmap fs)).map Prod.fst)).enum.any
            (fun pr => decide (((((scrub (ignoredOf opts) fs).map
              (fun kv => (kv.1, if kv.1 = k then new else kv.2))).filter
                (fun kv => isChildNode kv.2)).map Prod.fst).get? pr.1 ≠ some pr.2))) = false := by
          refine reorder_eq_false _ ?_ ?_
          · rw [scrub_phmap, phmap_keys, map_kv_keys]
          · rw [map_kv_keys]
            exact hndP1
        have hchildren : processChildrenF (serverOf root) opts f path false 0
            (((scrub (ignoredOf opts) fs).map
              (fun kv => (kv.1, if kv.1 = k then new else kv.2))).filter
                (fun kv => isChildNode kv.2)) = .ok ([], []) := by
          refine (processNodeF_noop root opts f).2 path _ 0 ?_ ?_
          · intro e he
            exact upd_children hnode hwf e he (upd_filter_ne (scalarLeaf_not_child hsc) e he)
          · have hMsz : jsizeFields ((scrub (ignoredOf opts) fs).map
                (fun kv => (kv.1, if kv.1 = k then new else kv.2))) ≤
                jsizeFields (fs.map (fun kv => (kv.1, if kv.1 = k then new else kv.2))) := by
              rw [← scrub_map_kv]
              exact jsizeFields_sublist (List.filter_sublist _)
            have hCPsz : jsizeFields (((scrub (ignoredOf opts) fs).map
                (fun kv => (kv.1, if kv.1 = k then new else kv.2))).filter
                  (fun kv => isChildNode kv.2)) ≤
                jsizeFields ((scrub (ignoredOf opts) fs).map
                  (fun kv => (kv.1, if kv.1 = k then new else kv.2))) :=
              jsizeFields_sublist (List.filter_sublist _)
            omega
        rw [processNodeF.eq_def]
        simp only [hfetch, except_bind_ok, jfieldsOf, hplan, List.foldlM_nil, pure_bind,
          List.append_nil, List.isEmpty_cons, Bool.false_eq_true, if_false]
        rw [hpost, except_map_ok, except_bind_ok, hro, hchildren, except_bind_ok]
        simp only [List.append_nil]
        rfl
      | deeper hjlk hjig hdiff2 =>
        rename_i gs props' j q'
        have hjv_mem : (j, JValue.obj gs) ∈ fs := lookupF_mem hjlk
        have hmemscrubj : (j, JValue.obj gs) ∈ scrub (ignoredOf opts) fs :=
          List.mem_filter.mpr ⟨hjv_mem, by simpa using hjig⟩
        have holdlkj : lookupF (scrub (ignoredOf opts) fs) j = some (JValue.obj gs) :=
          lookupF_mem_nodup hndP1 hmemscrubj
        have hmetaM : ∀ kv2 ∈ (scrub (ignoredOf opts) fs).map
            (fun kv => (kv.1, if kv.1 = j then JValue.obj props' else kv.2)),
            keyIsMeta kv2.1 = false := by
          intro kv2 hkv2
          obtain ⟨kv, hkv, hmap⟩ := List.mem_map.mp hkv2
          rw [← hmap]
          exact (jsonWfFields_mem hwfF (List.mem_of_mem_filter hkv)).1
        have hmetaj : keyIsMeta j = false := (jsonWfFields_mem hwfF hjv_mem).1
        have hEk : entriesForKey (phmap (scrub (ignoredOf opts) fs))
            ((scrub (ignoredOf opts) fs).map
              (fun kv => (kv.1, if kv.1 = j then JValue.obj props' else kv.2)))
            (j, JValue.obj props') =
            .ok ([], if isChildNode (JValue.obj props')
              then [(j, JValue.obj props')] else []) := by
          simp [entriesForKey, hmetaj, lookupF_meta_none' hmetaM j, getJcrValueType,
            typeHintEntries, isChildNode]
        have hplan := planLevel_upd hwf holdlkj (scrub_map_kv _ _ _) hEk
        have hwfgs : jsonWfVal (JValue.obj gs) = true :=
          (jsonWfFields_mem hwfF hjv_mem).2
        have hjnode : nodeAt root (path ++ [j]) = some (JValue.obj gs) := by
          have hnav : nodeAt (JValue.obj fs) [j] = some (JValue.obj gs) := by
            rw [nodeAt, hjlk]
            rfl
          rw [nodeAt_append, hnode]
          show nodeAt (JValue.obj fs) [j] = some (JValue.obj gs)
          rw [hnav]
        have hmemM : (j, JValue.obj props') ∈ (scrub (ignoredOf opts) fs).map
            (fun kv => (kv.1, if kv.1 = j then JValue.obj props' else kv.2)) :=
          List.mem_map.mpr ⟨(j, JValue.obj gs), hmemscrubj, by simp⟩
        have hmemCP : (j, JValue.obj props') ∈ ((scrub (ignoredOf opts) fs).map
            (fun kv => (kv.1, if kv.1 = j then JValue.obj props' else kv.2))).filter
              (fun kv => isChildNode kv.2) :=
          List.mem_filter.mpr ⟨hmemM, by simp [isChildNode]⟩
        have hndM : (((scrub (ignoredOf opts) fs).map
            (fun kv => (kv.1, if kv.1 = j then JValue.obj props' else kv.2))).map
              Prod.fst).Nodup := by
          rw [map_kv_keys]
          exact hndP1
        have hndCP : ((((scrub (ignoredOf opts) fs).map
            (fun kv => (kv.1, if kv.1 = j then JValue.obj props' else kv.2))).filter
              (fun kv => isChildNode kv.2)).map Prod.fst).Nodup :=
          hndM.sublist (List.Sublist.map Prod.fst (List.filter_sublist _))
        have hjcount : (((scrub (ignoredOf opts) fs).map
            (fun kv => (kv.1, if kv.1 = j then JValue.obj props' else kv.2))).filter
              (fun kv => isChildNode kv.2)).filter (fun kv => kv.1 = j) =
            [(j, JValue.obj props')] :=
          filter_eq_single_of_lookup hndCP (lookupF_mem_nodup hndCP hmemCP)
        have hro : ((List.filter (fun v =>
              (lookupF (((scrub (ignoredOf opts) fs).map
                (fun kv => (kv.1, if kv.1 = j then JValue.obj props' else kv.2))).filter
                  (fun kv => isChildNode kv.2)) v).isSome)
              ((scrub (ignoredOf opts) (phmap fs)).map Prod.fst)).enum.any
            (fun pr => decide (((((scrub (ignoredOf opts) fs).map
              (fun kv => (kv.1, if kv.1 = j then JValue.obj props' else kv.2))).filter
                (fun kv => isChildNode kv.2)).map Prod.fst).get? pr.1 ≠ some pr.2))) = false := by
          refine reorder_eq_false _ ?_ ?_
          · rw [scrub_phmap, phmap_keys, map_kv_keys]
          · rw [map_kv_keys]
            exact hndP1
        have hchildren : processChildrenF (serverOf root) opts f path false 0
            (((scrub (ignoredOf opts) fs).map
              (fun kv => (kv.1, if kv.1 = j then JValue.obj props' else kv.2))).filter
                (fun kv => isChildNode kv.2)) =
            .ok ([Event.post ((path ++ [j]) ++ q')
                  [(k, formatJcrValue new), (k ++ "@TypeHint", "String")]],
                 [pathString ((path ++ [j]) ++ q')]) := by
          refine ih.2 path _ 0 j q' gs props'
            (fun e he hne => upd_children hnode hwf e he hne)
            hjcount hjnode hwfgs hdiff2 ?_
          have hMsz : jsizeFields ((scrub (ignoredOf opts) fs).map
              (fun kv => (kv.1, if kv.1 = j then JValue.obj props' else kv.2))) ≤
              jsizeFields (fs.map
                (fun kv => (kv.1, if kv.1 = j then JValue.obj props' else kv.2))) := by
            rw [← scrub_map_kv]
            exact jsizeFields_sublist (List.filter_sublist _)
          have hCPsz : jsizeFields (((scrub (ignoredOf opts) fs).map
              (fun kv => (kv.1, if kv.1 = j then JValue.obj props' else kv.2))).filter
                (fun kv => isChildNode kv.2)) ≤
              jsizeFields ((scrub (ignoredOf opts) fs).map
                (fun kv => (kv.1, if kv.1 = j then JValue.obj props' else kv.2))) :=
            jsizeFields_sublist (List.filter_sublist _)
          omega
        rw [processNodeF.eq_def]
        simp only [hfetch, except_bind_ok, jfieldsOf, hplan, List.foldlM_nil, pure_bind,
          List.append_nil, List.isEmpty_nil, if_true]
        rw [hro, hchildren, except_bind_ok]
        simp only [List.nil_append, List.append_assoc, List.singleton_append]
        rfl
    · intro path l idx j q' gs props' hothers hjcount hjnode hwfgs hdiff hf
      cases l with
      | nil => simp at hjcount
      | cons kv rest =>
        by_cases hkj : kv.1 = j
        · rw [List.filter_cons, if_pos (by simp [hkj])] at hjcount
          injection hjcount with h1 h2
          subst h1
          have hr1 : processNodeF (serverOf root) opts f (path ++ [j])
              (jfieldsOf (JValue.obj props')) (if false then some idx else none) =
              .ok ([Event.post ((path ++ [j]) ++ q')
                    [(k, formatJcrValue new), (k ++ "@TypeHint", "String")]],
                   [pathString ((path ++ [j]) ++ q')]) := by
            refine ih.1 (path ++ [j]) q' props' gs hjnode hwfgs hdiff ?_
            have hsz : jsizeFields ((j, JValue.obj props') :: rest) =
                jsize (JValue.obj props') + jsizeFields rest := jsizeFields_cons _ _
            have : jsizeFields props' + 1 ≤ jsize (JValue.obj props') := by
              rw [jsize]
              omega
            omega
          have hr2 : processChildrenF (serverOf root) opts f path false (idx + 1) rest =
              .ok ([], []) := by
            refine (processNodeF_noop root opts f).2 path rest (idx + 1) ?_ ?_
            · intro kv2 hm2
              have hne : kv2.1 ≠ j := by
                intro he
                have hmf : kv2 ∈ rest.filter (fun kv => kv.1 = j) :=
                  List.mem_filter.mpr ⟨hm2, by simp [he]⟩
                rw [h2] at hmf
                exact absurd hmf (List.not_mem_nil kv2)
              exact hothers kv2 (List.mem_cons_of_mem _ hm2) hne
            · have hsz : jsizeFields ((j, JValue.obj props') :: rest) =
                  jsize (JValue.obj props') + jsizeFields rest := jsizeFields_cons _ _
              have hpos := jsize_pos (JValue.obj props')
              omega
          rw [processChildrenF.eq_def]
          simp only [hr1, except_bind_ok, hr2]
          rfl
        · rw [List.filter_cons, if_neg (by simp [hkj])] at hjcount
          obtain ⟨hs, hgs2, hnode2, hwf2⟩ := hothers kv (List.mem_cons_self kv rest) hkj
          have hr1 : processNodeF (serverOf root) opts f (path ++ [kv.1]) (jfieldsOf kv.2)
              (if false then some idx else none) = .ok ([], []) := by
            refine (processNodeF_noop root opts f).1 (path ++ [kv.1]) (jfieldsOf kv.2) hs
              hnode2 hwf2 (by rw [hgs2]; rfl) ?_
            have hsz := jsizeFields_cons kv rest
            have hjf := jsizeFields_jfieldsOf kv.2
            omega
          have hr2 : processChildrenF (serverOf root) opts f path false (idx + 1) rest =
              .ok ([Event.post ((path ++ [j]) ++ q')
                    [(k, formatJcrValue new), (k ++ "@TypeHint", "String")]],
                   [pathString ((path ++ [j]) ++ q')]) := by
            refine ih.2 path rest (idx + 1) j q' gs props'
              (fun kv2 h2 hne => hothers kv2 (List.mem_cons_of_mem _ h2) hne)
              hjcount hjnode hwfgs hdiff ?_
            have hsz := jsizeFields_cons kv rest
            have hpos := jsize_pos kv.2
            omega
          rw [processChildrenF.eq_def]
          simp only [hr1, except_bind_ok, hr2]
          rfl

/-- C1: diff minimality of the writer against the canonical transport.
(a) When the desired property list agrees with the stored node after
ignored-property removal on both sides, the call issues zero write
requests — at every level, since identical subtrees recurse
identically.  (b) When the desired list is the stored tree with exactly
one scalar field `k` (reached along child path `q`) rewritten to a
scalar rendering differently, the call issues exactly one write
request: a single POST at the differing node whose mutation carries the
one changed field — its formatted new value and its type-hint
companion — and nothing else; no policy-driven deletion arises since
every stored key stays present. -/
theorem C1_diff_minimality (root : JValue) (opts : SaveOptions) (path : List String)
    (props fs : List (String × JValue)) (k : String) (new : JValue) (q : List String)
    (hnode : nodeAt root path = some (.obj fs))
    (hwf : jsonWfVal (.obj fs) = true) :
    (scrub (ignoredOf opts) props = scrub (ignoredOf opts) fs →
      saveJcrProperties (serverOf root) path props opts = .ok ([], [])) ∧
    (scalarLeaf new = true →
      DiffSpec (ignoredOf opts) k new fs q props →
      saveJcrProperties (serverOf root) path props opts =
        .ok ([Event.post (path ++ q)
              [(k, formatJcrValue new), (k ++ "@TypeHint", "String")]],
             [pathString (path ++ q)])) := by
  constructor
  · intro hscrub
    have h := (processNodeF_noop root opts (2 * jsizeFields props + 2)).1 path props fs
      hnode hwf hscrub (Nat.le_refl _)
    rw [saveJcrProperties, h]
  · intro hsc hdiff
    have h := (processNodeF_onediff root opts k new hsc (2 * jsizeFields props + 2)).1
      path q props fs hnode hwf hdiff (Nat.le_refl _)
    rw [saveJcrProperties, h]

/-- C1 exercised on the spec's own example: stored
`{jcr:primaryType:"nt:unstructured", title:"Old"}` — saving the
identical tree issues no request, and saving it with
`title:"New"` issues the single write `{title:"New",
title@TypeHint:"String"}`. -/
theorem C1_diff_minimality_witness :
    (saveJcrProperties (serverOf (.obj [("p", .obj
        [("jcr:primaryType", JValue.str "nt:unstructured"), ("title", JValue.str "Old")])]))
      ["p"] [("jcr:primaryType", JValue.str "nt:unstructured"), ("title", JValue.str "Old")]
      {} = .ok ([], [])) ∧
    (saveJcrProperties (serverOf (.obj [("p", .obj
        [("jcr:primaryType", JValue.str "nt:unstructured"), ("title", JValue.str "Old")])]))
      ["p"] [("jcr:primaryType", JValue.str "nt:unstructured"), ("title", JValue.str "New")]
      {} = .ok ([Event.post ["p"] [("title", "New"), ("title@TypeHint", "String")]], ["p"])) :=
  ⟨(C1_diff_minimality
      (.obj [("p", .obj [("jcr:primaryType", JValue.str "nt:unstructured"),
        ("title", JValue.str "Old")])]) {} ["p"]
      [("jcr:primaryType", JValue.str "nt:unstructured"), ("title", JValue.str "Old")]
      [("jcr:primaryType", JValue.str "nt:unstructured"), ("title", JValue.str "Old")]
      "title" (JValue.str "New") [] rfl (by decide)).1 rfl,
   (C1_diff_minimality
      (.obj [("p", .obj [("jcr:primaryType", JValue.str "nt:unstructured"),
        ("title", JValue.str "Old")])]) {} ["p"]
      [("jcr:primaryType", JValue.str "nt:unstructured"), ("title", JValue.str "New")]
      [("jcr:primaryType", JValue.str "nt:unstructured"), ("title", JValue.str "Old")]
      "title" (JValue.str "New") [] rfl (by decide)).2 rfl
     (DiffSpec.here rfl rfl (by decide) rfl)⟩
